import Mathlib

/-!
Shallow embedding of the hierarchical DAG layout engine of vizstack
(`xnode/src/components/layouts/DagLayout/layout_archive.js` and the
`DagLayout` resize handler in `xnode/src/core/interaction/events.js`).

Machine numbers are modelled exactly: geometry coordinates as `Int`,
measured sizes (which may be fractional) as `ℚ`.  JavaScript `null` /
`undefined` values are modelled as `Option`.  Unbounded loops and
recursions in the source are modelled with an explicit fuel parameter;
a `none` result means the fuel ran out (the source computation did not
terminate within that budget).  JavaScript mutation is modelled by
explicit state passing.
-/

/-- Node orientation (the `orientation` field of a `DagNodeLayoutSpec`). -/
inductive Orient where
  | horizontal
  | vertical
  deriving DecidableEq

/-- An ELK port side (`NORTH` / `SOUTH` / `EAST` / `WEST`). -/
inductive Side where
  | north
  | south
  | east
  | west
  deriving DecidableEq

/-- Edge preferred sides as written on a `DagEdgeLayoutSpec`
(`left` / `right` / `up` / `down`). -/
inductive Dir4 where
  | left
  | right
  | up
  | down
  deriving DecidableEq

/-- The `_sideMap` table of `GraphProperties`. -/
def sideMap : Dir4 → Side
  | .left => .west
  | .right => .east
  | .up => .north
  | .down => .south

/-- `this._sideMap[edge.startSide]`: an absent preferred side stays absent. -/
def sideMapOpt : Option Dir4 → Option Side := Option.map sideMap

/-- The `inMap` table inside `getEdgeSegments`. -/
def inMap : Orient → Side
  | .horizontal => .west
  | .vertical => .south

/-- The `outMap` table inside `getEdgeSegments`. -/
def outMap : Orient → Side
  | .horizontal => .east
  | .vertical => .north

/-- The getters of the `GraphProperties` class that the edge slicer uses:
`getParent` (with `none` as the root context), `getHierarchyHeight`, and
`getOrientation` on proper node ids.  Node ids are `Nat`. -/
structure GraphProperties where
  parent : Nat → Option Nat
  height : Nat → Nat
  orient : Nat → Orient

/-- `getOrientation`, which treats the root context (`null`) as `vertical`. -/
def orientationOf (g : GraphProperties) : Option Nat → Orient
  | none => .vertical
  | some n => g.orient n

/-- A planar point `{x, y}`; ELK geometry is modelled over `Int`. -/
structure Point where
  x : Int
  y : Int
  deriving DecidableEq

instance : Add Point := ⟨fun a b => ⟨a.x + b.x, a.y + b.y⟩⟩

/-- A `DagEdgeLayoutSpec`: endpoints, optional preferred sides, plus the
`points` / `z` fields that `elkGraphToEdgeTransforms` writes into it. -/
structure EdgeSpec where
  id : Nat
  startId : Nat
  endId : Nat
  startSide : Option Dir4
  endSide : Option Dir4
  points : Option (List Point) := none
  z : Option Int := none
  deriving DecidableEq

/-- A port identifier as produced by `getPortId(node, portNum, isInput)`. -/
structure PortRef where
  node : Nat
  num : Nat
  isIn : Bool
  deriving DecidableEq

/-- An `ELKEdgeSegment`: one slice of an edge, owned by the node whose ELK
child list it will join (`owner = none` stands for the root context). -/
structure Segment where
  edgeId : Nat
  startPort : PortRef
  endPort : PortRef
  owner : Option Nat
  index : Nat
  deriving DecidableEq

/-- The `while (startNodeId !== endNodeId)` loop in the `ELKEdgeSegment`
constructor, which finds the lowest common ancestor of the segment's two
endpoints.  The fuel bounds the number of iterations; in the `else` branch
both cursors being `none` is impossible (they would be equal), so that arm
reports fuel-style failure. -/
def segmentParentWalk (g : GraphProperties) : Nat → Option Nat → Option Nat → Option (Option Nat)
  | 0, _, _ => none
  | fuel+1, s, e =>
    if s = e then some s
    else
      match s, e with
      | none, none => none
      | none, some ev => segmentParentWalk g fuel none (g.parent ev)
      | some sv, none => segmentParentWalk g fuel (g.parent sv) none
      | some sv, some ev =>
        if g.height sv > g.height ev then segmentParentWalk g fuel s (g.parent ev)
        else if g.height sv < g.height ev then segmentParentWalk g fuel (g.parent sv) e
        else segmentParentWalk g fuel (g.parent sv) (g.parent ev)

/-- The `ELKEdgeSegment` constructor: record the two ports and compute the
owning container with `segmentParentWalk`.  The sequence index is assigned
later by `setIndex` (modelled in `closingStep`). -/
def mkSegment (g : GraphProperties) (wfuel : Nat) (edgeId : Nat) (sId : Nat) (sPort : PortRef)
    (eId : Nat) (ePort : PortRef) : Option Segment :=
  (segmentParentWalk g wfuel (some sId) (some eId)).map fun own =>
    { edgeId := edgeId, startPort := sPort, endPort := ePort, owner := own, index := 0 }

/-- The `outPorts` / `inPorts` objects of `getEdgeSegments`: per node, the
list of port sides created so far (the proxy defaults a missing entry
to `[]`, so a total function into lists is an exact model). -/
abbrev PortMap := Nat → List (Option Side)

/-- `ports[n].push(v)`. -/
def pushPort (m : PortMap) (n : Nat) (v : Option Side) : PortMap :=
  fun k => if k = n then m n ++ [v] else m k

/-- The per-edge mutable state of the slicing loop in `getEdgeSegments`:
the two segment chains, the two cursors, the `firstInPortAssigned` flag and
the two port tables. -/
structure SliceState where
  fromSegs : List Segment
  toSegs : List Segment
  startId : Nat
  endId : Nat
  firstIn : Bool
  outPorts : PortMap
  inPorts : PortMap

/-- What slicing one edge produces: its segment chain in sequence order and
the updated port tables. -/
structure EdgeResult where
  segments : List Segment
  outPorts : PortMap
  inPorts : PortMap

/-- Outcome of one iteration of the slicing loop. -/
inductive StepOut where
  | finished (res : EdgeResult)
  | next (st : SliceState)

/-- The closing branch of the slicing loop (`parentOf(startId) ===
parentOf(endId)`): emit the final segment, push the target-side port, and
assign sequence indices over `fromChain ++ [final] ++ reverse toChain`. -/
def closingStep (g : GraphProperties) (edge : EdgeSpec) (wfuel : Nat) (st : SliceState) :
    Option StepOut :=
  (mkSegment g wfuel edge.id st.startId
      ⟨st.startId, (st.outPorts st.startId).length - 1, false⟩ st.endId
      ⟨st.endId, (st.inPorts st.endId).length, true⟩).map fun seg =>
    let allSegs := (st.fromSegs ++ [seg]) ++ st.toSegs.reverse
    .finished {
      segments := allSegs.enum.map fun p => { p.2 with index := p.1 },
      outPorts := st.outPorts,
      inPorts := pushPort st.inPorts st.endId
        (if st.firstIn then some (inMap (orientationOf g (g.parent st.endId)))
         else sideMapOpt edge.endSide) }

/-- The target-side advancing branch of the slicing loop: emit a segment
from a fresh port on `parentOf(endId)` down to `endId`, push the incoming
port side on `endId`, mark the first incoming port as assigned, and move
the target cursor up.  `parentOf(endId)` is never the root context when
this branch runs in the source; hitting it reports failure. -/
def toAdvanceStep (g : GraphProperties) (edge : EdgeSpec) (wfuel : Nat) (st : SliceState) :
    Option StepOut :=
  match g.parent st.endId with
  | none => none
  | some pe =>
    (mkSegment g wfuel edge.id pe ⟨pe, (st.inPorts pe).length, true⟩ st.endId
        ⟨st.endId, (st.inPorts st.endId).length, true⟩).map fun seg =>
      .next { st with
        toSegs := st.toSegs ++ [seg],
        inPorts := pushPort st.inPorts st.endId
          (if st.firstIn then some (inMap (g.orient pe)) else sideMapOpt edge.endSide),
        firstIn := true,
        endId := pe }

/-- The source-side advancing branch of the slicing loop: emit a segment
from the current outgoing port on `startId` up to a fresh port on its
parent `ps`, move the source cursor up, and push the new outgoing port
side (taken from the parent's own orientation). -/
def fromAdvanceStep (g : GraphProperties) (edge : EdgeSpec) (wfuel : Nat) (st : SliceState)
    (ps : Nat) : Option StepOut :=
  (mkSegment g wfuel edge.id st.startId
      ⟨st.startId, (st.outPorts st.startId).length - 1, false⟩ ps
      ⟨ps, (st.outPorts ps).length, false⟩).map fun seg =>
    .next { st with
      fromSegs := st.fromSegs ++ [seg],
      startId := ps,
      outPorts := pushPort st.outPorts ps (some (outMap (g.orient ps))) }

/-- One iteration of the `while (true)` loop of `getEdgeSegments`: close if
the cursors share a parent, otherwise advance the target side when
`parentOf(startId)` is the root context or strictly higher than
`parentOf(endId)`, and advance the source side in every other case. -/
def sliceStep (g : GraphProperties) (edge : EdgeSpec) (wfuel : Nat) (st : SliceState) :
    Option StepOut :=
  if g.parent st.startId = g.parent st.endId then
    closingStep g edge wfuel st
  else
    match g.parent st.startId, g.parent st.endId with
    | none, _ => toAdvanceStep g edge wfuel st
    | some ps, none => fromAdvanceStep g edge wfuel st ps
    | some ps, some pe =>
      if g.height ps > g.height pe then toAdvanceStep g edge wfuel st
      else fromAdvanceStep g edge wfuel st ps

/-- The `while (true)` loop of `getEdgeSegments`, bounded by fuel. -/
def sliceEdgeLoop (g : GraphProperties) (edge : EdgeSpec) : Nat → SliceState → Option EdgeResult
  | 0, _ => none
  | fuel+1, st =>
    match sliceStep g edge (fuel+1) st with
    | none => none
    | some (.finished r) => some r
    | some (.next st') => sliceEdgeLoop g edge fuel st'

/-- The state in which the slicing loop starts for one edge: cursors at the
edge endpoints and the initial `outPorts[startId].push(getStartSide(edgeId))`. -/
def sliceInitState (edge : EdgeSpec) (outP inP : PortMap) : SliceState :=
  { fromSegs := [], toSegs := [], startId := edge.startId, endId := edge.endId,
    firstIn := false,
    outPorts := pushPort outP edge.startId (sideMapOpt edge.startSide),
    inPorts := inP }

/-- Slicing of a single edge: the body of the `forEach` over edges inside
`getEdgeSegments`, starting from the given port tables. -/
def sliceEdge (g : GraphProperties) (edge : EdgeSpec) (fuel : Nat) (outP inP : PortMap) :
    Option EdgeResult :=
  sliceEdgeLoop g edge fuel (sliceInitState edge outP inP)

/-- The port table both proxies start from: every entry defaults to `[]`. -/
def emptyPorts : PortMap := fun _ => []

/-- Iterating the edge's ancestor chain: `ancestorAfter g k x` is the node
reached from `x` by `k` applications of `getParent` (absorbing at the root
context).  Used to state hop counts up to a common ancestor. -/
def ancestorAfter (g : GraphProperties) : Nat → Option Nat → Option Nat
  | 0, x => x
  | _+1, none => none
  | k+1, some v => ancestorAfter g k (g.parent v)

/-- Hierarchy-height tables are association lists from node id to height
(`this._nodeHierarchyHeights`). -/
abbrev HeightMap := List (Nat × Nat)

/-- Lookup in a height table (`nodeId in this._nodeHierarchyHeights`). -/
def lookupH : HeightMap → Nat → Option Nat
  | [], _ => none
  | (k, v) :: rest, n => if k = n then some v else lookupH rest n

/-- Reading the freshly computed child heights back from the memo table
(`children.map((childId) => this._nodeHierarchyHeights[childId])`); a
missing entry is reported as failure. -/
def lookupHeights (hs : HeightMap) : List Nat → Option (List Nat)
  | [] => some []
  | c :: cs =>
    match lookupH hs c with
    | none => none
    | some h =>
      match lookupHeights hs cs with
      | none => none
      | some rest => some (h :: rest)

mutual

/-- `GraphProperties._setHierarchyHeight`: memoized recursive computation
of a node's hierarchy height (0 for a node without children, otherwise
1 + the maximum child height).  Every call consumes one unit of fuel, so a
`none` result means the recursion did not finish within the budget; for a
terminating run some finite budget succeeds, and a larger budget gives the
same result.  Child heights are read back from the memo table after the
recursive calls; a missing entry there is reported as failure. -/
def setHierarchyHeight (children : Nat → List Nat) : Nat → HeightMap → Nat → Option HeightMap
  | 0, _, _ => none
  | fuel+1, hs, nodeId =>
    match lookupH hs nodeId with
    | some _ => some hs
    | none =>
      match children nodeId with
      | [] => some ((nodeId, 0) :: hs)
      | c :: cs =>
        match setHeightList children fuel hs (c :: cs) with
        | none => none
        | some hs' =>
          match lookupHeights hs' (c :: cs) with
          | none => none
          | some chs => some ((nodeId, chs.foldl Nat.max 0 + 1) :: hs')

/-- The `children.forEach((childId) => this._setHierarchyHeight(childId))`
loop, threading the memo table through the child list (again one unit of
fuel per processed child). -/
def setHeightList (children : Nat → List Nat) : Nat → HeightMap → List Nat → Option HeightMap
  | _, hs, [] => some hs
  | 0, _, _ :: _ => none
  | fuel+1, hs, c :: cs =>
    match setHierarchyHeight children fuel hs c with
    | none => none
    | some hs' => setHeightList children fuel hs' cs

end

/-- The height-computing loop of the `GraphProperties` constructor:
`nodes.forEach(({id}) => this._setHierarchyHeight(id))` starting from an
empty table. -/
def computeHierarchyHeights (children : Nat → List Nat) (ids : List Nat) (fuel : Nat) :
    Option HeightMap :=
  ids.foldlM (fun hs i => setHierarchyHeight children fuel hs i) []

/-- Divergence of the height computation: no fuel budget suffices. -/
def HeightsDiverge (children : Nat → List Nat) (ids : List Nat) : Prop :=
  ∀ fuel, computeHierarchyHeights children ids fuel = none

/-- The defining equations of hierarchy heights, satisfied by the computed
memo table: 0 for a node without children, otherwise 1 + the maximum of
the children's heights (all of which are present in the table). -/
def HeightsSpec (children : Nat → List Nat) (hs : HeightMap) : Prop :=
  ∀ a ha, lookupH hs a = some ha →
    (children a = [] ∧ ha = 0) ∨
    (∃ chs, children a ≠ [] ∧ lookupHeights hs (children a) = some chs ∧
      ha = chs.foldl Nat.max 0 + 1)

/-- A one-node hierarchy in which node 0 lists itself as its own child. -/
def childrenCyc : Nat → List Nat := fun _ => [0]

/-- A `DagNodeLayoutSpec`: id, child ids, orientation (the source field is
called `orientation`), optional measured size, plus the geometry fields
that `elkGraphToNodeTransformsRecurse` writes into it. -/
structure NodeSpec where
  id : Nat
  children : List Nat
  orient : Orient
  width : Option Int := none
  height : Option Int := none
  x : Option Int := none
  y : Option Int := none
  z : Option Int := none
  deriving DecidableEq

/-- The `_nodeParents` table of the `GraphProperties` constructor: start
with `null` for every node, then walk the node list assigning
`parent[child] = node.id` (a later assignment overwrites an earlier one). -/
def parentsOf (specs : List NodeSpec) : Nat → Option Nat :=
  fun n => specs.foldl (fun acc s => if n ∈ s.children then some s.id else acc) none

/-- Lookup of a node spec by id (`this._nodes[nodeId]`). -/
def findSpec (specs : List NodeSpec) (n : Nat) : Option NodeSpec :=
  specs.find? (fun s => s.id == n)

/-- The children of a node as read from the spec table.  A missing node
crashes the source; here it yields no children (unreachable for
well-formed graphs). -/
def childrenFn (specs : List NodeSpec) : Nat → List Nat :=
  fun n => ((findSpec specs n).map (·.children)).getD []

/-- A node's orientation as read from the spec table. -/
def orientFn (specs : List NodeSpec) : Nat → Orient :=
  fun n => ((findSpec specs n).map (·.orient)).getD .vertical

/-- A port object of an ELK node (`{id, properties: {'port.side': ...}}`);
`side = none` is the empty property object. -/
structure ElkPort where
  ref : PortRef
  side : Option Side
  deriving DecidableEq

/-- The single entry of an ELK edge's `sections` array after layout. -/
structure ElkSection where
  startPoint : Point
  bendPoints : List Point
  endPoint : Point
  deriving DecidableEq

/-- An ELK edge object, as produced by `ELKEdgeSegment.toElkEdge` and as
consumed after layout (`notElk` carries `edgeId`, `index`, `z`; `sections`
is filled by the solver). -/
structure ElkEdge where
  edgeId : Nat
  index : Nat
  z : Int
  sources : List PortRef
  targets : List PortRef
  sections : List ElkSection
  deriving DecidableEq

mutual

/-- An ELK node object: `id` (`none` is the root context node), position,
optional committed size, the draw-order tag `notElk.z`, ports, owned edge
segments, and children. -/
inductive ElkNode where
  | mk (nodeId : Option Nat) (x y : Int) (width height : Option Int) (z : Int)
      (ports : List ElkPort) (edges : List ElkEdge) (children : ElkForest)
  deriving DecidableEq

/-- The `children` array of an ELK node. -/
inductive ElkForest where
  | nil
  | cons (head : ElkNode) (tail : ElkForest)
  deriving DecidableEq

end

def ElkNode.nodeId : ElkNode → Option Nat
  | .mk i _ _ _ _ _ _ _ _ => i

def ElkNode.posX : ElkNode → Int
  | .mk _ x _ _ _ _ _ _ _ => x

def ElkNode.posY : ElkNode → Int
  | .mk _ _ y _ _ _ _ _ _ => y

def ElkNode.widthF : ElkNode → Option Int
  | .mk _ _ _ w _ _ _ _ _ => w

def ElkNode.heightF : ElkNode → Option Int
  | .mk _ _ _ _ h _ _ _ _ => h

def ElkNode.zF : ElkNode → Int
  | .mk _ _ _ _ _ z _ _ _ => z

def ElkNode.portsF : ElkNode → List ElkPort
  | .mk _ _ _ _ _ _ p _ _ => p

def ElkNode.edgesF : ElkNode → List ElkEdge
  | .mk _ _ _ _ _ _ _ e _ => e

def ElkNode.childrenF : ElkNode → ElkForest
  | .mk _ _ _ _ _ _ _ _ c => c

/-- The position of an ELK node as a point. -/
def ElkNode.pos (n : ElkNode) : Point := ⟨n.posX, n.posY⟩

/-- `createElkNode`: translate a node spec into an ELK node with no edges
and no children.  The committed size is copied only when `node.width` is
defined (the source gates both `width` and `height` on `width` alone); the
draw order is `z = -getHierarchyHeight(node.id)`; the port objects are the
incoming ports followed by the outgoing ports, numbered in creation
order. -/
def createElkNode (spec : NodeSpec) (outs ins : List (Option Side)) (g : GraphProperties) :
    ElkNode :=
  let sz : Option Int × Option Int :=
    match spec.width with
    | some w => (some w, spec.height)
    | none => (none, none)
  .mk (some spec.id) 0 0 sz.1 sz.2 (-(g.height spec.id : Int))
    ((ins.enum.map fun p => ⟨⟨spec.id, p.1, true⟩, p.2⟩) ++
      (outs.enum.map fun p => ⟨⟨spec.id, p.1, false⟩, p.2⟩))
    [] .nil

/-- Attach the edge list and child list that the source assigns to an ELK
node after `createElkNode` returns. -/
def withChildrenEdges : ElkNode → List ElkEdge → ElkForest → ElkNode
  | .mk i x y w h z p _ _, es, cs => .mk i x y w h z p es cs

/-- `ELKEdgeSegment.toElkEdge`: the ELK edge object for a segment
(`z` is the constant 0 of `notElk`). -/
def toElkEdge (seg : Segment) : ElkEdge :=
  { edgeId := seg.edgeId, index := seg.index, z := 0,
    sources := [seg.startPort], targets := [seg.endPort], sections := [] }

/-- Accumulated result of slicing every edge: segments grouped by owning
node (`none` = the root context) plus the final port tables. -/
structure SliceAllResult where
  segsByOwner : Option Nat → List Segment
  outPorts : PortMap
  inPorts : PortMap

/-- `getEdgeSegments`: slice every edge in order, threading the shared port
tables, and group the produced segments by their owning node. -/
def getEdgeSegments (g : GraphProperties) (edges : List EdgeSpec) (fuel : Nat) :
    Option SliceAllResult :=
  edges.foldlM
    (fun acc e =>
      (sliceEdge g e fuel acc.outPorts acc.inPorts).map fun r =>
        { segsByOwner := fun o => acc.segsByOwner o ++ r.segments.filter (fun s => s.owner == o),
          outPorts := r.outPorts,
          inPorts := r.inPorts })
    { segsByOwner := fun _ => [], outPorts := emptyPorts, inPorts := emptyPorts }

mutual

/-- Build the ELK node for one node spec: `createElkNode`, then attach its
owned edge segments and its recursively built children.  Fuel is consumed
one unit per call, bounding the total recursion. -/
def buildElkNodeF (specs : List NodeSpec) (g : GraphProperties) (sl : SliceAllResult) :
    Nat → Nat → Option ElkNode
  | 0, _ => none
  | fuel+1, n =>
    match findSpec specs n with
    | none => none
    | some spec =>
      match buildElkForestF specs g sl fuel spec.children with
      | none => none
      | some kids =>
        some (withChildrenEdges (createElkNode spec (sl.outPorts n) (sl.inPorts n) g)
          ((sl.segsByOwner (some n)).map toElkEdge) kids)

/-- Build the ELK nodes of a child id list. -/
def buildElkForestF (specs : List NodeSpec) (g : GraphProperties) (sl : SliceAllResult) :
    Nat → List Nat → Option ElkForest
  | _, [] => some .nil
  | 0, _ :: _ => none
  | fuel+1, n :: rest =>
    match buildElkNodeF specs g sl fuel n with
    | none => none
    | some c =>
      match buildElkForestF specs g sl fuel rest with
      | none => none
      | some cs => some (.cons c cs)

end

/-- The `GraphProperties` constructor reduced to the getters the layout
uses: parents from the children lists, heights from
`computeHierarchyHeights`, orientations from the specs. -/
def graphPropertiesOf (specs : List NodeSpec) (hs : HeightMap) : GraphProperties :=
  { parent := parentsOf specs,
    height := fun n => (lookupH hs n).getD 0,
    orient := orientFn specs }

/-- `getElkGraph`: build the graph properties, slice all edges, build the
ELK node of every root spec, and wrap them in the root context node, which
owns the root-level edge segments. -/
def getElkGraph (specs : List NodeSpec) (edges : List EdgeSpec) (fuel : Nat) : Option ElkNode :=
  match computeHierarchyHeights (childrenFn specs) (specs.map (·.id)) fuel with
  | none => none
  | some hs =>
    let g := graphPropertiesOf specs hs
    match getEdgeSegments g edges fuel with
    | none => none
    | some sl =>
      match buildElkForestF specs g sl fuel
          ((specs.filter (fun s => parentsOf specs s.id == none)).map (·.id)) with
      | none => none
      | some roots =>
        some (.mk none 0 0 none none 0 [] ((sl.segsByOwner none).map toElkEdge) roots)

/-- `elkEdgeToPointArray`: start point, bend points, end point of the
edge's single section, each translated by the owner's offset.  The source
crashes on a missing section; here that yields no points (unreachable for
solved graphs). -/
def elkEdgeToPointArray (e : ElkEdge) (off : Point) : List Point :=
  match e.sections with
  | [] => []
  | sec :: _ => (sec.startPoint + off) :: (sec.bendPoints.map (· + off) ++ [sec.endPoint + off])

/-- One slice of an edge group: absolute points plus the stored sequence
index. -/
structure EdgeSlice where
  points : List Point
  order : Nat
  deriving DecidableEq

/-- An edge group: the group's draw order and its slices in insertion
order. -/
structure EdgeGroupData where
  z : Int
  edgeSlices : List EdgeSlice
  deriving DecidableEq

/-- The `edgeGroups` object, keyed by originating edge id. -/
abbrev EdgeGroups := Nat → Option EdgeGroupData

/-- Insert one slice into its group, creating the group (with the edge's
`z`) on first contact. -/
def pushSlice (groups : EdgeGroups) (eid : Nat) (z : Int) (slice : EdgeSlice) : EdgeGroups :=
  fun k =>
    if k = eid then
      match groups eid with
      | none => some { z := z, edgeSlices := [slice] }
      | some grp => some { grp with edgeSlices := grp.edgeSlices ++ [slice] }
    else groups k

mutual

/-- `elkGraphToEdgeGroupsRecurse`: add every edge of this node (translated
by the accumulated offset) to its group, then recurse into the children
with the offset advanced by each child's position. -/
def elkGraphToEdgeGroupsRecurse : ElkNode → EdgeGroups → Point → EdgeGroups
  | .mk _ _ _ _ _ _ _ edges children, groups, off =>
    edgeGroupsForest children
      (edges.foldl
        (fun gr e => pushSlice gr e.edgeId e.z ⟨elkEdgeToPointArray e off, e.index⟩) groups)
      off

/-- The loop over `elkNode.children` inside `elkGraphToEdgeGroupsRecurse`. -/
def edgeGroupsForest : ElkForest → EdgeGroups → Point → EdgeGroups
  | .nil, groups, _ => groups
  | .cons c rest, groups, off =>
    edgeGroupsForest rest (elkGraphToEdgeGroupsRecurse c groups (off + c.pos)) off

end

/-- `elkGraphToEdgeGroups`: collect from the root with offset `(0, 0)`. -/
def elkGraphToEdgeGroups (graph : ElkNode) : EdgeGroups :=
  elkGraphToEdgeGroupsRecurse graph (fun _ => none) ⟨0, 0⟩

/-- An entry of the `edgeTransforms` mapping. -/
structure EdgeTransform where
  points : List Point
  z : Int
  deriving DecidableEq

/-- Reassembly of one edge group: sort the slices by ascending stored
order, seed the polyline with the first slice's first point, then append
every slice's points from index 1 on.  The source indexes into the sorted
array unconditionally; an empty group or an empty first slice (both
unreachable) yield an empty seed here. -/
def assembleGroup (grp : EdgeGroupData) : EdgeTransform :=
  let sorted := grp.edgeSlices.mergeSort (fun a b => a.order ≤ b.order)
  let seed : List Point :=
    match sorted with
    | [] => []
    | s :: _ =>
      match s.points with
      | [] => []
      | p :: _ => [p]
  { points := seed ++ (sorted.map (fun s => s.points.drop 1)).flatten, z := grp.z }

/-- The `edgeTransforms` mapping of `elkGraphToEdgeTransforms`. -/
def edgeTransformsOf (graph : ElkNode) : Nat → Option EdgeTransform :=
  fun eid => (elkGraphToEdgeGroups graph eid).map assembleGroup

/-- `elkGraphToEdgeTransforms`: write each edge's reassembled points and
`z` into its spec and return the spec list.  A spec whose id has no group
would crash the source; here it passes through unchanged (unreachable). -/
def elkGraphToEdgeTransforms (graph : ElkNode) (edges : List EdgeSpec) : List EdgeSpec :=
  edges.map fun e =>
    match edgeTransformsOf graph e.id with
    | none => e
    | some tr => { e with points := some tr.points, z := some tr.z }

/-- Write one solved ELK child's geometry into the matching node spec
(`nodes.find(...)` followed by field assignments). -/
def writeNodeGeom (nodes : List NodeSpec) (c : ElkNode) (off : Point) : List NodeSpec :=
  nodes.map fun s =>
    if some s.id = c.nodeId then
      { s with
        x := some (c.posX + off.x),
        y := some (c.posY + off.y),
        z := some c.zF,
        width := c.widthF,
        height := c.heightF }
    else s

mutual

/-- `elkGraphToNodeTransformsRecurse`: for each child, write its absolute
geometry into the spec list, then recurse into it with the accumulated
offset. -/
def elkGraphToNodeTransformsRecurse : ElkNode → List NodeSpec → Point → List NodeSpec
  | .mk _ _ _ _ _ _ _ _ children, nodes, off => nodeTransformsForest children nodes off

/-- The loop over `elkNode.children` inside
`elkGraphToNodeTransformsRecurse`. -/
def nodeTransformsForest : ElkForest → List NodeSpec → Point → List NodeSpec
  | .nil, nodes, _ => nodes
  | .cons c rest, nodes, off =>
    nodeTransformsForest rest
      (elkGraphToNodeTransformsRecurse c (writeNodeGeom nodes c off) (off + c.pos)) off

end

/-- `elkGraphToNodeTransforms`: walk from the root with offset `(0, 0)`. -/
def elkGraphToNodeTransforms (graph : ElkNode) (nodes : List NodeSpec) : List NodeSpec :=
  elkGraphToNodeTransformsRecurse graph nodes ⟨0, 0⟩

/-- The published result of one layout pass: the arguments of the
`onComplete` callback (graph size plus the mutated node and edge specs). -/
structure LayoutResult where
  width : Option Int
  height : Option Int
  nodes : List NodeSpec
  edges : List EdgeSpec
  deriving DecidableEq

/-- One full pipeline pass (`layout` / `layoutElkGraph` with the external
solver treated as a pure function): build the ELK graph, solve it, and
extract the node and edge transforms. -/
def runLayoutPipeline (solver : ElkNode → ElkNode) (fuel : Nat) (nodes : List NodeSpec)
    (edges : List EdgeSpec) : Option LayoutResult :=
  match getElkGraph nodes edges fuel with
  | none => none
  | some graph =>
    let solved := solver graph
    some
      { width := solved.widthF,
        height := solved.heightF,
        nodes := elkGraphToNodeTransforms solved nodes,
        edges := elkGraphToEdgeTransforms solved edges }

/-- The size entry the `DagLayout` component state keeps per node
(`width` / `height` may still be unpopulated). -/
structure DagNodeSize where
  width : Option ℚ
  height : Option ℚ
  deriving DecidableEq

/-- The `DagLayout` component state visible to `_onNodeResize`: the
published layout data plus the `shouldLayout` flag. -/
structure DagLayoutState where
  shouldLayout : Bool
  nodes : Nat → DagNodeSize
  ordering : List Nat
  sizeW : ℚ
  sizeH : ℚ

/-- `kNodeResizeTolerance` from `events.js`. -/
def kNodeResizeTolerance : ℚ := 5

/-- `DagLayout._onNodeResize`: ignore the report when both previous
dimensions are defined and both deltas are strictly inside the tolerance;
otherwise store the reported size verbatim and schedule a re-layout. -/
def onNodeResize (st : DagLayoutState) (nodeId : Nat) (width height : ℚ) : DagLayoutState :=
  let upd : DagLayoutState :=
    { st with
      shouldLayout := true,
      nodes := fun k =>
        if k = nodeId then { width := some width, height := some height } else st.nodes k }
  match (st.nodes nodeId).width, (st.nodes nodeId).height with
  | some prevW, some prevH =>
    if |prevW - width| < kNodeResizeTolerance ∧ |prevH - height| < kNodeResizeTolerance then st
    else upd
  | _, _ => upd

/-- Hierarchy validity as the slicer relies on it: a node's hierarchy
height is strictly below its parent's (true whenever heights satisfy
`height = 1 + max (child heights)`). -/
def ParentHeightOK (g : GraphProperties) : Prop :=
  ∀ n p, g.parent n = some p → g.height n < g.height p

/-- Projection: the source cursor after a `next` step. -/
def stepNextStart : Option StepOut → Option Nat
  | some (.next st) => some st.startId
  | _ => none

/-- Projection: the target cursor after a `next` step. -/
def stepNextEnd : Option StepOut → Option Nat
  | some (.next st) => some st.endId
  | _ => none

/-! ### Concrete instances used by witnesses and counterexamples -/

/-- Two sibling leaves 0 and 1 at the top level. -/
def gSib : GraphProperties :=
  { parent := fun _ => none, height := fun _ => 0, orient := fun _ => .vertical }

/-- An edge between the two top-level siblings, with no preferred sides. -/
def eSib : EdgeSpec := { id := 7, startId := 0, endId := 1, startSide := none, endSide := none }

/-- Leaf 3 inside container 1 (which is `horizontal`); leaf 2 at the top
level next to container 1. -/
def gHop : GraphProperties :=
  { parent := fun n => if n = 3 then some 1 else none,
    height := fun n => if n = 1 then 1 else 0,
    orient := fun n => if n = 1 then .horizontal else .vertical }

/-- An edge from leaf 2 into leaf 3, with no preferred sides. -/
def edgeHop : EdgeSpec := { id := 5, startId := 2, endId := 3, startSide := none, endSide := none }

/-- Leaf 2 inside container 0 and leaf 3 inside container 1; the two
containers are top-level siblings of equal hierarchy height. -/
def gEqHeights : GraphProperties :=
  { parent := fun n => if n = 2 then some 0 else if n = 3 then some 1 else none,
    height := fun n => if n = 0 ∨ n = 1 then 1 else 0,
    orient := fun _ => .vertical }

/-- An edge from leaf 2 (inside container 0) to leaf 3 (inside
container 1). -/
def edgeEqHeights : EdgeSpec :=
  { id := 4, startId := 2, endId := 3, startSide := none, endSide := none }

/-- A component state in which node 0 has a measured size of 100 × 50. -/
def dagStateMeasured : DagLayoutState :=
  { shouldLayout := false,
    nodes := fun _ => { width := some 100, height := some 50 },
    ordering := [0],
    sizeW := 10,
    sizeH := 10 }

/-- The slices a single ELK node's own edge list contributes to edge
`eid`'s group, given the node's accumulated offset. -/
def edgeSlicesFor (edges : List ElkEdge) (off : Point) (eid : Nat) : List EdgeSlice :=
  (edges.filter (fun e => e.edgeId == eid)).map fun e => ⟨elkEdgeToPointArray e off, e.index⟩

mutual

/-- All slices of edge `eid` found in a subtree, with each node's edges
translated by the offset accumulated from the root down to that node. -/
def collectedSlices : ElkNode → Point → Nat → List EdgeSlice
  | .mk _ _ _ _ _ _ _ edges children, off, eid =>
    edgeSlicesFor edges off eid ++ collectedForest children off eid

/-- `collectedSlices` over a child list: each child's subtree is entered
with the offset advanced by the child's own position. -/
def collectedForest : ElkForest → Point → Nat → List EdgeSlice
  | .nil, _, _ => []
  | .cons c rest, off, eid =>
    collectedSlices c (off + c.pos) eid ++ collectedForest rest off eid

end

/-- The slice list a groups table holds for an edge (empty when the group
does not exist yet). -/
def slicesOfG (groups : EdgeGroups) (eid : Nat) : List EdgeSlice :=
  ((groups eid).map (·.edgeSlices)).getD []

/-- A two-node hierarchy: container 0 holding leaf 1. -/
def specsPair : List NodeSpec :=
  [{ id := 0, children := [1], orient := .vertical },
   { id := 1, children := [], orient := .vertical }]

/-- The slicing outcome for the sibling edge `eSib` in `gSib`: one root
segment and one sideless port at each endpoint. -/
def resSib : EdgeResult :=
  { segments :=
      [{ edgeId := 7,
         startPort := ⟨0, 0, false⟩,
         endPort := ⟨1, 0, true⟩,
         owner := none,
         index := 0 }],
    outPorts := pushPort emptyPorts 0 none,
    inPorts := pushPort emptyPorts 1 none }

/-- A two-segment solved edge (id 9): one slice on the root, one inside a
child container positioned at (10, 20). -/
def solvedTreeEx : ElkNode :=
  .mk none 0 0 none none 0 []
    [{ edgeId := 9, index := 0, z := 0, sources := [], targets := [],
       sections := [{ startPoint := ⟨0, 0⟩, bendPoints := [], endPoint := ⟨1, 1⟩ }] }]
    (.cons
      (.mk (some 0) 10 20 (some 50) (some 40) (-1) []
        [{ edgeId := 9, index := 1, z := 0, sources := [], targets := [],
           sections := [{ startPoint := ⟨0, 0⟩, bendPoints := [], endPoint := ⟨2, 0⟩ }] }]
        .nil)
      .nil)

/-- The group the collector builds for edge 9 of `solvedTreeEx`. -/
def grpEx : EdgeGroupData :=
  { z := 0,
    edgeSlices :=
      [{ points := [⟨0, 0⟩, ⟨1, 1⟩], order := 0 },
       { points := [⟨10, 20⟩, ⟨12, 20⟩], order := 1 }] }

/-- The function `writeNodeGeom` maps over the spec list, acting on one
spec. -/
def writeGeomFn (c : ElkNode) (off : Point) (s : NodeSpec) : NodeSpec :=
  if some s.id = c.nodeId then
    { s with
      x := some (c.posX + off.x),
      y := some (c.posY + off.y),
      z := some c.zF,
      width := c.widthF,
      height := c.heightF }
  else s

mutual

/-- The per-spec action of `elkGraphToNodeTransformsRecurse`: the node
transform pass is the map of this function over the spec list. -/
def nodeWriteFn : ElkNode → Point → NodeSpec → NodeSpec
  | .mk _ _ _ _ _ _ _ _ children, off, s => forestWriteFn children off s

/-- The per-spec action of `nodeTransformsForest`. -/
def forestWriteFn : ElkForest → Point → NodeSpec → NodeSpec
  | .nil, _, s => s
  | .cons c rest, off, s =>
    forestWriteFn rest off (nodeWriteFn c (off + c.pos) (writeGeomFn c off s))

end

/-- A bundle of geometry fields written into a node spec. -/
structure GeomUpdate where
  x : Option Int
  y : Option Int
  z : Option Int
  width : Option Int
  height : Option Int

/-- Overwrite the geometry fields of a spec with a bundle. -/
def applyGeom (u : GeomUpdate) (s : NodeSpec) : NodeSpec :=
  { s with x := u.x, y := u.y, z := u.z, width := u.width, height := u.height }

/-- A spec transformer that only overwrites geometry fields, keyed on the
spec's id: the shape of every stage of the node transform pass. -/
def GeomWriter (F : NodeSpec → NodeSpec) : Prop :=
  ∃ u : Nat → Option GeomUpdate,
    ∀ s, F s = match u s.id with
      | none => s
      | some b => applyGeom b s

/-- A single sizeless node spec, used to probe the pipeline. -/
def probeSpec : NodeSpec := { id := 0, children := [], orient := .vertical }

/-- A solved graph the probe solver returns on first contact: the child is
placed at (5, 6) and given a committed size. -/
def solvedProbeA : ElkNode :=
  .mk none 0 0 (some 100) (some 50) 0 [] []
    (.cons (.mk (some 0) 5 6 (some 30) (some 40) 0 [] [] .nil) .nil)

/-- A solved graph the probe solver returns once the child's size is
committed: the child is placed at (7, 8) instead. -/
def solvedProbeB : ElkNode :=
  .mk none 0 0 (some 100) (some 50) 0 [] []
    (.cons (.mk (some 0) 7 8 (some 30) (some 40) 0 [] [] .nil) .nil)

/-- The committed width of a graph's first root child. -/
def firstChildWidth (g : ElkNode) : Option Int :=
  match g.childrenF with
  | .nil => none
  | .cons c _ => c.widthF

/-- A deterministic pure solver whose answer depends on whether the child
arrives with a committed width — exactly the part of its input that the
first pipeline pass mutates. -/
def probeSolver (g : ElkNode) : ElkNode :=
  if firstChildWidth g = none then solvedProbeA else solvedProbeB

-- END-OF-DEFINITIONS

/-! ## Theorems -/

/-- C7: a size report for a node whose previous width and height are both
defined, with both absolute deltas strictly below the 5px tolerance, leaves
the component state — and hence the published layout — unchanged. -/
theorem claim_C7_subtolerance_resize_keeps_state
    (st : DagLayoutState) (n : Nat) (w h pw ph : ℚ)
    (hw : (st.nodes n).width = some pw) (hh : (st.nodes n).height = some ph)
    (h1 : |pw - w| < kNodeResizeTolerance) (h2 : |ph - h| < kNodeResizeTolerance) :
    onNodeResize st n w h = st := by
  unfold onNodeResize
  rw [hw, hh]
  simp [h1, h2]

/-- Witness for C7: a 0.4px width delta on a measured 100 × 50 node is
ignored. -/
theorem claim_C7_subtolerance_resize_keeps_state_witness :
    ((dagStateMeasured.nodes 0).width = some 100 ∧
      (dagStateMeasured.nodes 0).height = some 50 ∧
      |(100 : ℚ) - (100 + 2/5)| < kNodeResizeTolerance ∧
      |(50 : ℚ) - 50| < kNodeResizeTolerance) ∧
    onNodeResize dagStateMeasured 0 (100 + 2/5) 50 = dagStateMeasured := by
  have h1 : |(100 : ℚ) - (100 + 2/5)| < kNodeResizeTolerance := by
    norm_num [kNodeResizeTolerance, abs_lt]
  have h2 : |(50 : ℚ) - 50| < kNodeResizeTolerance := by
    norm_num [kNodeResizeTolerance]
  exact ⟨⟨rfl, rfl, h1, h2⟩,
    claim_C7_subtolerance_resize_keeps_state dagStateMeasured 0 (100 + 2/5) 50 100 50
      rfl rfl h1 h2⟩

/-- C9 counterexample: a negative size report (−10 × −10 on a node
previously measured 100 × 50, far outside the tolerance) is stored verbatim
in the layout state; no clamping to a positive placeholder happens. -/
theorem claim_C9_counterexample :
    ((onNodeResize dagStateMeasured 0 (-10) (-10)).nodes 0).width = some (-10) ∧
    ((onNodeResize dagStateMeasured 0 (-10) (-10)).nodes 0).height = some (-10) ∧
    ¬ (0 < (-10 : ℚ)) := by
  have hno : ¬ (|(100 : ℚ) + 10| < kNodeResizeTolerance ∧
      |(50 : ℚ) + 10| < kNodeResizeTolerance) := by
    norm_num [kNodeResizeTolerance, abs_lt]
  refine ⟨?_, ?_, by norm_num⟩ <;> simp [onNodeResize, dagStateMeasured, hno]

/-- C9 (amended): the engine stores every effective size report verbatim —
whenever the report is not discarded by the tolerance check (undefined
previous size, or some delta at or above tolerance), the reported width and
height are written into the state unmodified, negative values included, and
a re-layout is scheduled. -/
theorem claim_C9_anomalous_sizes_stored_verbatim
    (st : DagLayoutState) (n : Nat) (w h : ℚ)
    (hcond : (st.nodes n).width = none ∨ (st.nodes n).height = none ∨
      ∃ pw ph, (st.nodes n).width = some pw ∧ (st.nodes n).height = some ph ∧
        (kNodeResizeTolerance ≤ |pw - w| ∨ kNodeResizeTolerance ≤ |ph - h|)) :
    ((onNodeResize st n w h).nodes n).width = some w ∧
    ((onNodeResize st n w h).nodes n).height = some h ∧
    (onNodeResize st n w h).shouldLayout = true := by
  rcases hW : (st.nodes n).width with _ | pw <;>
    rcases hH : (st.nodes n).height with _ | ph
  · simp [onNodeResize, hW, hH]
  · simp [onNodeResize, hW, hH]
  · simp [onNodeResize, hW, hH]
  · have hno : ¬ (|pw - w| < kNodeResizeTolerance ∧ |ph - h| < kNodeResizeTolerance) := by
      rcases hcond with hc | hc | ⟨pw', ph', hpw, hph, hge⟩
      · rw [hW] at hc; exact absurd hc (by simp)
      · rw [hH] at hc; exact absurd hc (by simp)
      · rw [hW] at hpw
        rw [hH] at hph
        obtain rfl : pw = pw' := by injection hpw
        obtain rfl : ph = ph' := by injection hph
        rcases hge with hge | hge
        · exact fun hc => absurd hc.1 (not_lt.mpr hge)
        · exact fun hc => absurd hc.2 (not_lt.mpr hge)
    simp [onNodeResize, hW, hH, hno]

/-- Witness for C9's amended statement: the −10 × −10 report on a 50 × 50
node is stored as-is. -/
theorem claim_C9_anomalous_sizes_stored_verbatim_witness :
    (∃ pw ph, (dagStateMeasured.nodes 0).width = some pw ∧
      (dagStateMeasured.nodes 0).height = some ph ∧
      (kNodeResizeTolerance ≤ |pw - (-10 : ℚ)| ∨ kNodeResizeTolerance ≤ |ph - (-10 : ℚ)|)) ∧
    ((onNodeResize dagStateMeasured 0 (-10) (-10)).nodes 0).width = some (-10) ∧
    ((onNodeResize dagStateMeasured 0 (-10) (-10)).nodes 0).height = some (-10) ∧
    (onNodeResize dagStateMeasured 0 (-10) (-10)).shouldLayout = true := by
  have habs : kNodeResizeTolerance ≤ |(100 : ℚ) - (-10)| := by
    norm_num [kNodeResizeTolerance, abs_le]
  have hcond : (dagStateMeasured.nodes 0).width = none ∨
      (dagStateMeasured.nodes 0).height = none ∨
      ∃ pw ph, (dagStateMeasured.nodes 0).width = some pw ∧
        (dagStateMeasured.nodes 0).height = some ph ∧
        (kNodeResizeTolerance ≤ |pw - (-10 : ℚ)| ∨
          kNodeResizeTolerance ≤ |ph - (-10 : ℚ)|) :=
    .inr (.inr ⟨100, 50, rfl, rfl, .inl habs⟩)
  refine ⟨⟨100, 50, rfl, rfl, .inl habs⟩, ?_⟩
  exact claim_C9_anomalous_sizes_stored_verbatim dagStateMeasured 0 (-10) (-10) hcond

/-! ### Port table and parent-walk lemmas -/

theorem pushPort_same (m : PortMap) (n : Nat) (v : Option Side) :
    pushPort m n v n = m n ++ [v] := by
  simp [pushPort]

theorem pushPort_other (m : PortMap) (n : Nat) (v : Option Side) (k : Nat) (h : k ≠ n) :
    pushPort m n v k = m k := by
  simp [pushPort, h]

/-- The constructor's ancestor walk on a child/parent pair (child first)
stops at the parent. -/
theorem segmentParentWalk_up (g : GraphProperties) (c p k : Nat)
    (hpar : g.parent c = some p) (hlt : g.height c < g.height p) :
    segmentParentWalk g (k+2) (some c) (some p) = some (some p) := by
  have hne : c ≠ p := by
    intro h
    subst h
    exact lt_irrefl _ hlt
  have hngt : ¬ g.height c > g.height p := not_lt.mpr hlt.le
  simp [segmentParentWalk, hne, hngt, hlt, hpar]

/-- The constructor's ancestor walk on a parent/child pair (parent first)
stops at the parent. -/
theorem segmentParentWalk_down (g : GraphProperties) (c p k : Nat)
    (hpar : g.parent c = some p) (hlt : g.height c < g.height p) :
    segmentParentWalk g (k+2) (some p) (some c) = some (some p) := by
  have hne : p ≠ c := by
    intro h
    subst h
    exact lt_irrefl _ hlt
  have hgt : g.height p > g.height c := hlt
  simp [segmentParentWalk, hne, hgt, hpar]

/-- The constructor's ancestor walk on two distinct nodes sharing a parent
stops at that shared parent (the root context when both are top-level). -/
theorem segmentParentWalk_siblings (g : GraphProperties) (s t k : Nat)
    (hPH : ParentHeightOK g) (hsib : g.parent s = g.parent t) (hne : s ≠ t) :
    segmentParentWalk g (k+3) (some s) (some t) = some (g.parent s) := by
  rcases hP : g.parent s with _ | p
  · have hPt : g.parent t = none := by rw [← hsib, hP]
    rcases lt_trichotomy (g.height s) (g.height t) with hlt | heq | hgt
    · have hngt : ¬ g.height s > g.height t := not_lt.mpr hlt.le
      simp [segmentParentWalk, hne, hngt, hlt, hP, hPt]
    · have hngt : ¬ g.height s > g.height t := by omega
      have hnlt : ¬ g.height s < g.height t := by omega
      simp [segmentParentWalk, hne, hngt, hnlt, hP, hPt]
    · simp [segmentParentWalk, hne, hgt, hP, hPt]
  · have hPt : g.parent t = some p := by rw [← hsib, hP]
    have hs : g.height s < g.height p := hPH s p hP
    have ht : g.height t < g.height p := hPH t p hPt
    have hsp : s ≠ p := by
      intro h
      subst h
      exact lt_irrefl _ hs
    have htp : t ≠ p := by
      intro h
      subst h
      exact lt_irrefl _ ht
    rcases lt_trichotomy (g.height s) (g.height t) with hlt | heq | hgt
    · have hngt : ¬ g.height s > g.height t := not_lt.mpr hlt.le
      simp [segmentParentWalk, hne, hngt, hlt, hP, hPt, Ne.symm htp, ht]
    · have hngt : ¬ g.height s > g.height t := by omega
      have hnlt : ¬ g.height s < g.height t := by omega
      simp [segmentParentWalk, hne, hngt, hnlt, hP, hPt]
    · have hngt2 : ¬ g.height s > g.height p := not_lt.mpr hs.le
      simp [segmentParentWalk, hne, hgt, hP, hPt, hsp, hngt2, hs]

/-- C3 counterexample: in the concrete graph with leaf 2 in container 0 and
leaf 3 in container 1 (containers of equal height), the closing condition
fails and the two parents have equal heights, yet one loop iteration moves
only the source cursor (2 → 0) and leaves the target cursor at 3 instead of
advancing it to its parent 1. -/
theorem claim_C3_counterexample :
    gEqHeights.parent 2 = some 0 ∧ gEqHeights.parent 3 = some 1 ∧
    gEqHeights.parent 2 ≠ gEqHeights.parent 3 ∧
    gEqHeights.height 0 = gEqHeights.height 1 ∧
    stepNextStart (sliceStep gEqHeights edgeEqHeights 9
      (sliceInitState edgeEqHeights emptyPorts emptyPorts)) = some 0 ∧
    stepNextEnd (sliceStep gEqHeights edgeEqHeights 9
      (sliceInitState edgeEqHeights emptyPorts emptyPorts)) = some 3 ∧
    (some 3 : Option Nat) ≠ some 1 := by
  decide

/-- C3 (amended): when the closing condition fails and the two cursors'
parents have equal hierarchy heights, the loop iteration advances only the
source-side cursor (emitting its segment and its pass-through out-port);
the target-side cursor is left in place for a later iteration. -/
theorem claim_C3_equal_parent_heights_advance_source_side_only
    (g : GraphProperties) (edge : EdgeSpec) (st : SliceState) (k : Nat) (p q : Nat)
    (hps : g.parent st.startId = some p) (hpe : g.parent st.endId = some q)
    (hne : p ≠ q) (hhe : g.height p = g.height q)
    (hlt : g.height st.startId < g.height p) :
    sliceStep g edge (k+2) st =
      some (.next { st with
        fromSegs := st.fromSegs ++
          [{ edgeId := edge.id,
             startPort := ⟨st.startId, (st.outPorts st.startId).length - 1, false⟩,
             endPort := ⟨p, (st.outPorts p).length, false⟩,
             owner := some p,
             index := 0 }],
        startId := p,
        outPorts := pushPort st.outPorts p (some (outMap (g.orient p))) }) := by
  have hclose : ¬ g.parent st.startId = g.parent st.endId := by
    rw [hps, hpe]
    simp [hne]
  have hngt : ¬ g.height p > g.height q := by omega
  simp only [sliceStep, if_neg hclose, hps, hpe]
  rw [if_neg hngt]
  unfold fromAdvanceStep mkSegment
  rw [segmentParentWalk_up g st.startId p k hps hlt]
  rw [if_neg (show ¬ ((some p : Option Nat) = some q) by simp [hne])]
  rfl

/-- Witness for C3's amended statement, at the concrete equal-height
two-container graph. -/
theorem claim_C3_equal_parent_heights_advance_source_side_only_witness :
    (gEqHeights.parent (sliceInitState edgeEqHeights emptyPorts emptyPorts).startId = some 0 ∧
      gEqHeights.parent (sliceInitState edgeEqHeights emptyPorts emptyPorts).endId = some 1 ∧
      (0 : Nat) ≠ 1 ∧ gEqHeights.height 0 = gEqHeights.height 1 ∧
      gEqHeights.height (sliceInitState edgeEqHeights emptyPorts emptyPorts).startId <
        gEqHeights.height 0) ∧
    sliceStep gEqHeights edgeEqHeights (7+2) (sliceInitState edgeEqHeights emptyPorts emptyPorts) =
      some (.next { sliceInitState edgeEqHeights emptyPorts emptyPorts with
        fromSegs := (sliceInitState edgeEqHeights emptyPorts emptyPorts).fromSegs ++
          [{ edgeId := edgeEqHeights.id,
             startPort := ⟨(sliceInitState edgeEqHeights emptyPorts emptyPorts).startId,
               ((sliceInitState edgeEqHeights emptyPorts emptyPorts).outPorts
                 (sliceInitState edgeEqHeights emptyPorts emptyPorts).startId).length - 1, false⟩,
             endPort := ⟨0, ((sliceInitState edgeEqHeights emptyPorts emptyPorts).outPorts 0).length,
               false⟩,
             owner := some 0,
             index := 0 }],
        startId := 0,
        outPorts := pushPort (sliceInitState edgeEqHeights emptyPorts emptyPorts).outPorts 0
          (some (outMap (gEqHeights.orient 0))) }) :=
  ⟨⟨by decide, by decide, by decide, by decide, by decide⟩,
    claim_C3_equal_parent_heights_advance_source_side_only gEqHeights edgeEqHeights
      (sliceInitState edgeEqHeights emptyPorts emptyPorts) 7 0 1
      (by decide) (by decide) (by decide) (by decide) (by decide)⟩

/-- C4 counterexample: slicing the edge 2 → 3 (no preferred sides, target 3
inside the horizontal container 1): the first — and only — outgoing port
created on the true source 2 carries no side at all, not a side derived
from an orientation; and the pass-through incoming port created on the
ancestor 1 carries `SOUTH` (from the root context's vertical orientation),
not the `WEST` that container 1's own horizontal orientation would give. -/
theorem claim_C4_counterexample :
    (sliceEdge gHop edgeHop 9 emptyPorts emptyPorts).map (fun r => r.outPorts 2) =
      some [none] ∧
    (∀ o : Orient, (none : Option Side) ≠ some (outMap o)) ∧
    (sliceEdge gHop edgeHop 9 emptyPorts emptyPorts).map (fun r => r.inPorts 1) =
      some [some .south] ∧
    gHop.orient 1 = .horizontal ∧
    some Side.south ≠ some (inMap (gHop.orient 1)) := by
  refine ⟨by decide, ?_, by decide, by decide, by decide⟩
  intro o
  cases o <;> decide

/-- C4 (amended): how port sides are actually assigned.  (1) The port
created at the edge's true source carries exactly the mapped preferred
start side — no side at all when none is supplied.  (2) Whenever a step
pushes the first incoming port (`firstInPortAssigned` still false), that
port carries exactly the mapped preferred end side — again possibly no
side.  (3) A pass-through outgoing port pushed on an ancestor carries the
side given by that ancestor's own orientation (`EAST` / `NORTH`).  (4) A
pass-through incoming port pushed on a node carries the side given by the
orientation of that node's *parent* container (`WEST` / `SOUTH`, with the
root context counting as vertical) — not the node's own orientation. -/
theorem claim_C4_port_sides_as_implemented :
    (∀ (edge : EdgeSpec) (outP inP : PortMap),
      (sliceInitState edge outP inP).outPorts edge.startId =
        outP edge.startId ++ [sideMapOpt edge.startSide]) ∧
    (∀ (g : GraphProperties) (edge : EdgeSpec) (wfuel : Nat) (st : SliceState)
        (res : EdgeResult), st.firstIn = false →
      closingStep g edge wfuel st = some (.finished res) →
      res.inPorts st.endId = st.inPorts st.endId ++ [sideMapOpt edge.endSide]) ∧
    (∀ (g : GraphProperties) (edge : EdgeSpec) (wfuel : Nat) (st st' : SliceState),
      st.firstIn = false → toAdvanceStep g edge wfuel st = some (.next st') →
      st'.inPorts st.endId = st.inPorts st.endId ++ [sideMapOpt edge.endSide]) ∧
    (∀ (g : GraphProperties) (edge : EdgeSpec) (wfuel : Nat) (st st' : SliceState) (ps : Nat),
      fromAdvanceStep g edge wfuel st ps = some (.next st') →
      st'.outPorts ps = st.outPorts ps ++ [some (outMap (g.orient ps))]) ∧
    (∀ (g : GraphProperties) (edge : EdgeSpec) (wfuel : Nat) (st st' : SliceState),
      st.firstIn = true → toAdvanceStep g edge wfuel st = some (.next st') →
      ∃ pe, g.parent st.endId = some pe ∧
        st'.inPorts st.endId = st.inPorts st.endId ++ [some (inMap (g.orient pe))]) ∧
    (∀ (g : GraphProperties) (edge : EdgeSpec) (wfuel : Nat) (st : SliceState)
        (res : EdgeResult), st.firstIn = true →
      closingStep g edge wfuel st = some (.finished res) →
      res.inPorts st.endId =
        st.inPorts st.endId ++ [some (inMap (orientationOf g (g.parent st.endId)))]) := by
  refine ⟨?_, ?_, ?_, ?_, ?_, ?_⟩
  · intro edge outP inP
    simp [sliceInitState, pushPort]
  · intro g edge wfuel st res hfi h
    unfold closingStep at h
    rcases hmk : mkSegment g wfuel edge.id st.startId
        ⟨st.startId, (st.outPorts st.startId).length - 1, false⟩ st.endId
        ⟨st.endId, (st.inPorts st.endId).length, true⟩ with _ | seg
    · rw [hmk] at h
      simp at h
    · rw [hmk] at h
      simp only [Option.map_some', Option.some.injEq, StepOut.finished.injEq] at h
      subst h
      simp [hfi, pushPort]
  · intro g edge wfuel st st' hfi h
    unfold toAdvanceStep at h
    rcases hpe : g.parent st.endId with _ | pe
    · simp only [hpe] at h
      simp at h
    · simp only [hpe] at h
      rcases hmk : mkSegment g wfuel edge.id pe ⟨pe, (st.inPorts pe).length, true⟩ st.endId
          ⟨st.endId, (st.inPorts st.endId).length, true⟩ with _ | seg
      · rw [hmk] at h
        simp at h
      · rw [hmk] at h
        simp only [Option.map_some', Option.some.injEq, StepOut.next.injEq] at h
        subst h
        simp [hfi, pushPort]
  · intro g edge wfuel st st' ps h
    unfold fromAdvanceStep at h
    rcases hmk : mkSegment g wfuel edge.id st.startId
        ⟨st.startId, (st.outPorts st.startId).length - 1, false⟩ ps
        ⟨ps, (st.outPorts ps).length, false⟩ with _ | seg
    · rw [hmk] at h
      simp at h
    · rw [hmk] at h
      simp only [Option.map_some', Option.some.injEq, StepOut.next.injEq] at h
      subst h
      simp [pushPort]
  · intro g edge wfuel st st' hfi h
    unfold toAdvanceStep at h
    rcases hpe : g.parent st.endId with _ | pe
    · simp only [hpe] at h
      simp at h
    · refine ⟨pe, rfl, ?_⟩
      simp only [hpe] at h
      rcases hmk : mkSegment g wfuel edge.id pe ⟨pe, (st.inPorts pe).length, true⟩ st.endId
          ⟨st.endId, (st.inPorts st.endId).length, true⟩ with _ | seg
      · rw [hmk] at h
        simp at h
      · rw [hmk] at h
        simp only [Option.map_some', Option.some.injEq, StepOut.next.injEq] at h
        subst h
        simp [hfi, pushPort]
  · intro g edge wfuel st res hfi h
    unfold closingStep at h
    rcases hmk : mkSegment g wfuel edge.id st.startId
        ⟨st.startId, (st.outPorts st.startId).length - 1, false⟩ st.endId
        ⟨st.endId, (st.inPorts st.endId).length, true⟩ with _ | seg
    · rw [hmk] at h
      simp at h
    · rw [hmk] at h
      simp only [Option.map_some', Option.some.injEq, StepOut.finished.injEq] at h
      subst h
      simp [hfi, pushPort]

/-- Witness for C4's amended statement: the initial-port rule and the
first-incoming-port rule evaluated on the concrete sibling edge. -/
theorem claim_C4_port_sides_as_implemented_witness :
    ((sliceInitState eSib emptyPorts emptyPorts).outPorts eSib.startId =
      emptyPorts eSib.startId ++ [sideMapOpt eSib.startSide]) ∧
    ((sliceInitState eSib emptyPorts emptyPorts).firstIn = false ∧
      closingStep gSib eSib 9 (sliceInitState eSib emptyPorts emptyPorts) =
        some (.finished resSib) ∧
      resSib.inPorts (sliceInitState eSib emptyPorts emptyPorts).endId =
        (sliceInitState eSib emptyPorts emptyPorts).inPorts
          (sliceInitState eSib emptyPorts emptyPorts).endId ++ [sideMapOpt eSib.endSide]) :=
  ⟨claim_C4_port_sides_as_implemented.1 eSib emptyPorts emptyPorts,
    rfl, by rfl,
    claim_C4_port_sides_as_implemented.2.1 gSib eSib 9
      (sliceInitState eSib emptyPorts emptyPorts) resSib rfl (by rfl)⟩

/-- C1: for an edge whose source and target share an immediate parent, the
slicer produces exactly one segment, owned by that shared parent (the root
context when both endpoints are top-level), and creates exactly two ports:
one outgoing port appended on the source node and one incoming port
appended on the target node (all other port lists untouched, by definition
of `pushPort`). -/
theorem claim_C1_sibling_edge_single_segment_two_ports
    (g : GraphProperties) (edge : EdgeSpec) (oP iP : PortMap) (k : Nat)
    (hPH : ParentHeightOK g)
    (hsib : g.parent edge.startId = g.parent edge.endId)
    (hne : edge.startId ≠ edge.endId) :
    sliceEdge g edge (k+3) oP iP = some
      { segments :=
          [{ edgeId := edge.id,
             startPort := ⟨edge.startId, (oP edge.startId).length, false⟩,
             endPort := ⟨edge.endId, (iP edge.endId).length, true⟩,
             owner := g.parent edge.startId,
             index := 0 }],
        outPorts := pushPort oP edge.startId (sideMapOpt edge.startSide),
        inPorts := pushPort iP edge.endId (sideMapOpt edge.endSide) } := by
  have hwalk := segmentParentWalk_siblings g edge.startId edge.endId k hPH hsib hne
  simp only [sliceEdge, sliceEdgeLoop, sliceStep, sliceInitState, closingStep, mkSegment]
  rw [if_pos hsib]
  rw [hwalk]
  simp only [Option.map_some', pushPort_same]
  simp [List.enum, pushPort_same, Nat.add_sub_cancel]

/-- Witness for C1: the edge between top-level siblings 0 and 1 yields one
root-owned segment and one port per endpoint. -/
theorem claim_C1_sibling_edge_single_segment_two_ports_witness :
    (ParentHeightOK gSib ∧ gSib.parent eSib.startId = gSib.parent eSib.endId ∧
      eSib.startId ≠ eSib.endId) ∧
    sliceEdge gSib eSib (6+3) emptyPorts emptyPorts = some
      { segments :=
          [{ edgeId := eSib.id,
             startPort := ⟨eSib.startId, (emptyPorts eSib.startId).length, false⟩,
             endPort := ⟨eSib.endId, (emptyPorts eSib.endId).length, true⟩,
             owner := gSib.parent eSib.startId,
             index := 0 }],
        outPorts := pushPort emptyPorts eSib.startId (sideMapOpt eSib.startSide),
        inPorts := pushPort emptyPorts eSib.endId (sideMapOpt eSib.endSide) } := by
  have hPH : ParentHeightOK gSib := by
    intro n p h
    simp [gSib] at h
  exact ⟨⟨hPH, rfl, by decide⟩,
    claim_C1_sibling_edge_single_segment_two_ports gSib eSib emptyPorts emptyPorts 6 hPH rfl
      (by decide)⟩

/-! ### Hierarchy-height computation lemmas -/

theorem lookupH_cons (k v n : Nat) (hs : HeightMap) :
    lookupH ((k, v) :: hs) n = if k = n then some v else lookupH hs n := rfl

/-- The height recursion only adds memo entries: existing entries survive
with their values, and a successful call on `n` leaves an entry for `n`
(similarly every member of a successfully processed child list). -/
theorem setHierarchyHeight_preserve_member (children : Nat → List Nat) : ∀ fuel : Nat,
    (∀ hs n hs', setHierarchyHeight children fuel hs n = some hs' →
      (∀ k v, lookupH hs k = some v → lookupH hs' k = some v) ∧
      (lookupH hs' n).isSome) ∧
    (∀ hs l hs', setHeightList children fuel hs l = some hs' →
      (∀ k v, lookupH hs k = some v → lookupH hs' k = some v) ∧
      (∀ c ∈ l, (lookupH hs' c).isSome)) := by
  intro fuel
  induction fuel with
  | zero =>
    constructor
    · intro hs n hs' h
      simp [setHierarchyHeight] at h
    · intro hs l hs' h
      cases l with
      | nil =>
        simp only [setHeightList, Option.some.injEq] at h
        subst h
        exact ⟨fun k v hv => hv, by simp⟩
      | cons c cs => simp [setHeightList] at h
  | succ f ih =>
    constructor
    · intro hs n hs' h
      rw [setHierarchyHeight] at h
      split at h
      · next hv hl =>
        simp only [Option.some.injEq] at h
        subst h
        exact ⟨fun k v hv' => hv', by simp [hl]⟩
      · next hl =>
        split at h
        · next hc =>
          simp only [Option.some.injEq] at h
          subst h
          constructor
          · intro k v hv
            rw [lookupH_cons]
            split
            · next hkn =>
              subst hkn
              rw [hl] at hv
              cases hv
            · exact hv
          · simp [lookupH]
        · next c cs hc =>
          split at h
          · cases h
          · next hs1 hsl =>
            split at h
            · cases h
            · next chs hchs =>
              simp only [Option.some.injEq] at h
              subst h
              have hpres := (ih.2 hs (c :: cs) hs1 hsl).1
              constructor
              · intro k v hv
                rw [lookupH_cons]
                split
                · next hkn =>
                  subst hkn
                  rw [hl] at hv
                  cases hv
                · exact hpres k v hv
              · simp [lookupH]
    · intro hs l hs' h
      cases l with
      | nil =>
        simp only [setHeightList, Option.some.injEq] at h
        subst h
        exact ⟨fun k v hv => hv, by simp⟩
      | cons c cs =>
        rw [setHeightList] at h
        split at h
        · cases h
        · next hs1 hcc =>
          have hnode := ih.1 hs c hs1 hcc
          have hrest := ih.2 hs1 cs hs' h
          constructor
          · intro k v hv
            exact hrest.1 k v (hnode.1 k v hv)
          · intro x hx
            rcases List.mem_cons.mp hx with rfl | hx'
            · obtain ⟨v, hv⟩ := Option.isSome_iff_exists.mp hnode.2
              exact Option.isSome_iff_exists.mpr ⟨v, hrest.1 x v hv⟩
            · exact hrest.2 x hx'

/-- On the self-loop hierarchy the height recursion immediately re-enters
itself with an unchanged memo table, so it consumes any fuel budget. -/
theorem setHierarchyHeight_selfloop_diverges : ∀ fuel : Nat,
    (∀ hs : HeightMap, lookupH hs 0 = none →
      setHierarchyHeight childrenCyc fuel hs 0 = none) ∧
    (∀ hs : HeightMap, lookupH hs 0 = none →
      setHeightList childrenCyc fuel hs [0] = none) := by
  intro fuel
  induction fuel with
  | zero => exact ⟨fun hs _ => rfl, fun hs _ => rfl⟩
  | succ f ih =>
    constructor
    · intro hs h
      rw [setHierarchyHeight]
      rw [h]
      show (match setHeightList childrenCyc f hs [0] with
        | none => none
        | some hs' =>
          match lookupHeights hs' [0] with
          | none => none
          | some chs => some ((0, chs.foldl Nat.max 0 + 1) :: hs')) = none
      rw [ih.2 hs h]
    · intro hs h
      rw [setHeightList]
      rw [ih.1 hs h]

/-- C10 counterexample: on a cyclic children relation (node 0 is its own
child) the hierarchy-height computation of the `GraphProperties`
constructor diverges — no fuel budget makes it produce anything — instead
of detecting the cycle and raising an error (in JavaScript the unbounded
recursion dies by stack exhaustion, not by a cycle check). -/
theorem claim_C10_counterexample :
    0 ∈ childrenCyc 0 ∧ HeightsDiverge childrenCyc [0] := by
  refine ⟨by decide, ?_⟩
  intro fuel
  have h := (setHierarchyHeight_selfloop_diverges fuel).1 [] rfl
  simp [computeHierarchyHeights, h]

/-- Presence of every node of a list in the memo table lifts to
`lookupHeights`. -/
theorem lookupHeights_isSome_of_all (hs : HeightMap) :
    ∀ l : List Nat, (∀ x ∈ l, (lookupH hs x).isSome) → (lookupHeights hs l).isSome := by
  intro l
  induction l with
  | nil => intro _; simp [lookupHeights]
  | cons c cs ih =>
    intro hall
    rw [lookupHeights]
    obtain ⟨v, hv⟩ := Option.isSome_iff_exists.mp (hall c (by simp))
    rw [hv]
    obtain ⟨rest, hrest⟩ := Option.isSome_iff_exists.mp (ih fun x hx => hall x (by simp [hx]))
    rw [hrest]
    simp

/-- On an acyclic children relation (witnessed by a depth measure that
strictly decreases from a node to each of its children) the height
recursion terminates: some fuel budget, uniform in the memo table, makes
it succeed. -/
theorem setHierarchyHeight_acyclic_success (children : Nat → List Nat) (d : Nat → Nat)
    (hacyc : ∀ n c, c ∈ children n → d c < d n) :
    ∀ m : Nat, ∀ n, d n ≤ m →
      ∃ F, ∀ (hs : HeightMap) (fuel : Nat), F ≤ fuel →
        (setHierarchyHeight children fuel hs n).isSome := by
  intro m
  induction m with
  | zero =>
    intro n hdn
    have hch : children n = [] := by
      cases hc : children n with
      | nil => rfl
      | cons c cs =>
        have := hacyc n c (by rw [hc]; simp)
        omega
    refine ⟨1, ?_⟩
    intro hs fuel hf
    obtain ⟨f, rfl⟩ : ∃ f, fuel = f + 1 := ⟨fuel - 1, by omega⟩
    rw [setHierarchyHeight]
    cases hl : lookupH hs n with
    | some hv => simp
    | none =>
      rw [hch]
      simp
  | succ m ihm =>
    intro n hdn
    have hlist : ∀ l : List Nat, (∀ c ∈ l, d c ≤ m) →
        ∃ F, ∀ (hs : HeightMap) (fuel : Nat), F ≤ fuel →
          (setHeightList children fuel hs l).isSome := by
      intro l
      induction l with
      | nil =>
        intro _
        refine ⟨0, fun hs fuel _ => ?_⟩
        cases fuel <;> simp [setHeightList]
      | cons c cs ihl =>
        intro hc
        obtain ⟨Fc, hFc⟩ := ihm c (hc c (by simp))
        obtain ⟨Fcs, hFcs⟩ := ihl fun x hx => hc x (by simp [hx])
        refine ⟨max Fc Fcs + 1, ?_⟩
        intro hs fuel hf
        obtain ⟨f, rfl⟩ : ∃ f, fuel = f + 1 := ⟨fuel - 1, by omega⟩
        rw [setHeightList]
        obtain ⟨hs1, hh1⟩ := Option.isSome_iff_exists.mp (hFc hs f (by omega))
        rw [hh1]
        exact hFcs hs1 f (by omega)
    cases hch : children n with
    | nil =>
      refine ⟨1, ?_⟩
      intro hs fuel hf
      obtain ⟨f, rfl⟩ : ∃ f, fuel = f + 1 := ⟨fuel - 1, by omega⟩
      rw [setHierarchyHeight]
      cases hl : lookupH hs n with
      | some hv => simp
      | none =>
        rw [hch]
        simp
    | cons c cs =>
      have hforall : ∀ x ∈ children n, d x ≤ m := by
        intro x hx
        have := hacyc n x hx
        omega
      obtain ⟨FL, hFL⟩ := hlist (children n) hforall
      refine ⟨FL + 1, ?_⟩
      intro hs fuel hf
      obtain ⟨f, rfl⟩ : ∃ f, fuel = f + 1 := ⟨fuel - 1, by omega⟩
      rw [setHierarchyHeight]
      cases hl : lookupH hs n with
      | some hv => simp
      | none =>
        have h1 := hFL hs f (by omega)
        rw [hch] at h1
        obtain ⟨hs1, hh1⟩ := Option.isSome_iff_exists.mp h1
        have hmem := ((setHierarchyHeight_preserve_member children f).2 hs (c :: cs) hs1
          hh1).2
        obtain ⟨chs, hchs⟩ := Option.isSome_iff_exists.mp
          (lookupHeights_isSome_of_all hs1 (c :: cs) hmem)
        simp [hch, hh1, hchs]

/-- Any entry the height recursion adds on behalf of node `n` is for a node
at depth at most `d n` (for the child-list version: bounded by some member
of the list).  This makes the node itself a fresh key when its own entry is
finally written. -/
theorem setHierarchyHeight_bound (children : Nat → List Nat) (d : Nat → Nat)
    (hacyc : ∀ n c, c ∈ children n → d c < d n) : ∀ fuel : Nat,
    (∀ hs n hs', setHierarchyHeight children fuel hs n = some hs' →
      ∀ k, lookupH hs k = none → (lookupH hs' k).isSome → d k ≤ d n) ∧
    (∀ hs l hs', setHeightList children fuel hs l = some hs' →
      ∀ k, lookupH hs k = none → (lookupH hs' k).isSome → ∃ c ∈ l, d k ≤ d c) := by
  intro fuel
  induction fuel with
  | zero =>
    constructor
    · intro hs n hs' h
      simp [setHierarchyHeight] at h
    · intro hs l hs' h k hk hk'
      cases l with
      | nil =>
        simp only [setHeightList, Option.some.injEq] at h
        subst h
        rw [hk] at hk'
        cases hk'
      | cons c cs => simp [setHeightList] at h
  | succ f ih =>
    constructor
    · intro hs n hs' h k hk hk'
      rw [setHierarchyHeight] at h
      split at h
      · next hv hl =>
        simp only [Option.some.injEq] at h
        subst h
        rw [hk] at hk'
        cases hk'
      · next hl =>
        split at h
        · next hc =>
          simp only [Option.some.injEq] at h
          subst h
          rw [lookupH_cons] at hk'
          split at hk'
          · next hkn => exact hkn ▸ le_rfl
          · rw [hk] at hk'
            cases hk'
        · next c cs hc =>
          split at h
          · cases h
          · next hs1 hsl =>
            split at h
            · cases h
            · next chs hchs =>
              simp only [Option.some.injEq] at h
              subst h
              rw [lookupH_cons] at hk'
              split at hk'
              · next hkn => exact hkn ▸ le_rfl
              · obtain ⟨c', hc', hd⟩ := ih.2 hs (c :: cs) hs1 hsl k hk hk'
                have : d c' < d n := hacyc n c' (hc ▸ hc')
                omega
    · intro hs l hs' h k hk hk'
      cases l with
      | nil =>
        simp only [setHeightList, Option.some.injEq] at h
        subst h
        rw [hk] at hk'
        cases hk'
      | cons c cs =>
        rw [setHeightList] at h
        split at h
        · cases h
        · next hs1 hcc =>
          cases hk1 : lookupH hs1 k with
          | some v =>
            have := ih.1 hs c hs1 hcc k hk (by simp [hk1])
            exact ⟨c, by simp, this⟩
          | none =>
            obtain ⟨c', hc', hd⟩ := ih.2 hs1 cs hs' h k hk1 hk'
            exact ⟨c', by simp [hc'], hd⟩

/-- Every node of a successfully looked-up list has its height among the
looked-up values. -/
theorem lookupHeights_mem (hs : HeightMap) : ∀ (l : List Nat) (ys : List Nat),
    lookupHeights hs l = some ys → ∀ x ∈ l, ∃ y, lookupH hs x = some y ∧ y ∈ ys := by
  intro l
  induction l with
  | nil =>
    intro ys h x hx
    cases hx
  | cons c cs ih =>
    intro ys h x hx
    rw [lookupHeights] at h
    split at h
    · cases h
    · next v hv =>
      split at h
      · cases h
      · next rest hrest =>
        simp only [Option.some.injEq] at h
        subst h
        rcases List.mem_cons.mp hx with rfl | hx'
        · exact ⟨v, hv, by simp⟩
        · obtain ⟨y, hy, hym⟩ := ih rest hrest x hx'
          exact ⟨y, hy, by simp [hym]⟩

/-- Consing an entry for a key outside the list does not change a
`lookupHeights` read. -/
theorem lookupHeights_cons_of_ne (hs : HeightMap) (n hv : Nat) :
    ∀ l : List Nat, (∀ x ∈ l, x ≠ n) →
      lookupHeights ((n, hv) :: hs) l = lookupHeights hs l := by
  intro l
  induction l with
  | nil => intro _; rfl
  | cons c cs ih =>
    intro hne
    rw [lookupHeights, lookupHeights]
    rw [lookupH_cons]
    rw [if_neg fun h => hne c (by simp) h.symm]
    rw [ih fun x hx => hne x (by simp [hx])]

/-- The height recursion maintains the defining equations of hierarchy
heights: every memo table satisfying `HeightsSpec` still satisfies it after
a successful call (acyclicity gives the freshness of the newly written
key). -/
theorem setHierarchyHeight_spec_preserve (children : Nat → List Nat) (d : Nat → Nat)
    (hacyc : ∀ n c, c ∈ children n → d c < d n) : ∀ fuel : Nat,
    (∀ hs n hs', setHierarchyHeight children fuel hs n = some hs' →
      HeightsSpec children hs → HeightsSpec children hs') ∧
    (∀ hs l hs', setHeightList children fuel hs l = some hs' →
      HeightsSpec children hs → HeightsSpec children hs') := by
  have cons_spec : ∀ (hs : HeightMap) (n hv : Nat), lookupH hs n = none →
      HeightsSpec children hs →
      ((children n = [] ∧ hv = 0) ∨
        (∃ chs, children n ≠ [] ∧ lookupHeights ((n, hv) :: hs) (children n) = some chs ∧
          hv = chs.foldl Nat.max 0 + 1)) →
      HeightsSpec children ((n, hv) :: hs) := by
    intro hs n hv hfresh hspec hnew a ha hla
    rw [lookupH_cons] at hla
    split at hla
    · next hna =>
      subst hna
      simp only [Option.some.injEq] at hla
      subst hla
      exact hnew
    · next hna =>
      rcases hspec a ha hla with ⟨hc, h0⟩ | ⟨chs, hne, hlk, heq⟩
      · exact .inl ⟨hc, h0⟩
      · refine .inr ⟨chs, hne, ?_, heq⟩
        rw [lookupHeights_cons_of_ne]
        · exact hlk
        · intro x hx hxn
          subst hxn
          obtain ⟨y, hy, _⟩ := lookupHeights_mem hs (children a) chs hlk x hx
          rw [hfresh] at hy
          cases hy
  intro fuel
  induction fuel with
  | zero =>
    constructor
    · intro hs n hs' h
      simp [setHierarchyHeight] at h
    · intro hs l hs' h hspec
      cases l with
      | nil =>
        simp only [setHeightList, Option.some.injEq] at h
        subst h
        exact hspec
      | cons c cs => simp [setHeightList] at h
  | succ f ih =>
    constructor
    · intro hs n hs' h hspec
      rw [setHierarchyHeight] at h
      split at h
      · next hv hl =>
        simp only [Option.some.injEq] at h
        subst h
        exact hspec
      · next hl =>
        split at h
        · next hc =>
          simp only [Option.some.injEq] at h
          subst h
          exact cons_spec hs n 0 hl hspec (.inl ⟨hc, rfl⟩)
        · next c cs hc =>
          split at h
          · cases h
          · next hs1 hsl =>
            split at h
            · cases h
            · next chs hchs =>
              simp only [Option.some.injEq] at h
              subst h
              have hspec1 := ih.2 hs (c :: cs) hs1 hsl hspec
              have hfresh1 : lookupH hs1 n = none := by
                cases hk1 : lookupH hs1 n with
                | none => rfl
                | some v =>
                  obtain ⟨c', hc', hd⟩ :=
                    (setHierarchyHeight_bound children d hacyc f).2 hs (c :: cs) hs1 hsl n hl
                      (by simp [hk1])
                  have : d c' < d n := hacyc n c' (hc ▸ hc')
                  omega
              refine cons_spec hs1 n (chs.foldl Nat.max 0 + 1) hfresh1 hspec1 (.inr ⟨chs, ?_, ?_, rfl⟩)
              · rw [hc]
                simp
              · rw [hc]
                rw [lookupHeights_cons_of_ne]
                · exact hchs
                · intro x hx hxn
                  have : d x < d n := hacyc n x (hc ▸ hx)
                  subst hxn
                  omega
    · intro hs l hs' h hspec
      cases l with
      | nil =>
        simp only [setHeightList, Option.some.injEq] at h
        subst h
        exact hspec
      | cons c cs =>
        rw [setHeightList] at h
        split at h
        · cases h
        · next hs1 hcc =>
          exact ih.2 hs1 cs hs' h (ih.1 hs c hs1 hcc hspec)

/-- The constructor's height loop over all node ids succeeds on an acyclic
children relation, the resulting table contains every listed id, and it
satisfies the height equations. -/
theorem computeHierarchyHeights_acyclic_success (children : Nat → List Nat) (d : Nat → Nat)
    (hacyc : ∀ n c, c ∈ children n → d c < d n) :
    ∀ ids : List Nat, ∃ F, ∀ (hs0 : HeightMap) (fuel : Nat), F ≤ fuel →
      ∃ hs, ids.foldlM (fun hs i => setHierarchyHeight children fuel hs i) hs0 = some hs ∧
        (∀ k v, lookupH hs0 k = some v → lookupH hs k = some v) ∧
        (∀ i ∈ ids, (lookupH hs i).isSome) ∧
        (HeightsSpec children hs0 → HeightsSpec children hs) := by
  intro ids
  induction ids with
  | nil => exact ⟨0, fun hs0 fuel _ => ⟨hs0, by simp, fun k v hv => hv, by simp, fun h => h⟩⟩
  | cons i is ih =>
    obtain ⟨Fi, hFi⟩ := setHierarchyHeight_acyclic_success children d hacyc (d i) i le_rfl
    obtain ⟨Fr, hFr⟩ := ih
    refine ⟨max Fi Fr, ?_⟩
    intro hs0 fuel hf
    obtain ⟨hs1, hh1⟩ := Option.isSome_iff_exists.mp (hFi hs0 fuel (by omega))
    obtain ⟨hs, hhs, hpres, hmem, hsp⟩ := hFr hs1 fuel (by omega)
    refine ⟨hs, ?_, ?_, ?_, ?_⟩
    · simp [List.foldlM_cons, hh1, hhs]
    · intro k v hv
      exact hpres k v
        (((setHierarchyHeight_preserve_member children fuel).1 hs0 i hs1 hh1).1 k v hv)
    · intro x hx
      rcases List.mem_cons.mp hx with rfl | hx'
      · obtain ⟨v, hv⟩ := Option.isSome_iff_exists.mp
          (((setHierarchyHeight_preserve_member children fuel).1 hs0 x hs1 hh1).2)
        exact Option.isSome_iff_exists.mpr ⟨v, hpres x v hv⟩
      · exact hmem x hx'
    · intro hspec0
      exact hsp ((setHierarchyHeight_spec_preserve children d hacyc fuel).1 hs0 i hs1 hh1 hspec0)

/-- C10 (amended): on a cyclic children relation the height computation of
the `GraphProperties` constructor recurses unboundedly (no cycle check, no
explicit error — see the counterexample); on every acyclic node set it
terminates, producing a height for every node. -/
theorem claim_C10_acyclic_heights_terminate (children : Nat → List Nat) (ids : List Nat)
    (d : Nat → Nat) (hacyc : ∀ n c, c ∈ children n → d c < d n) :
    ∃ F, ∀ fuel, F ≤ fuel →
      ∃ hs, computeHierarchyHeights children ids fuel = some hs ∧
        ∀ i ∈ ids, ∃ h, lookupH hs i = some h := by
  obtain ⟨F, hF⟩ := computeHierarchyHeights_acyclic_success children d hacyc ids
  refine ⟨F, fun fuel hf => ?_⟩
  obtain ⟨hs, h1, _, h3, _⟩ := hF [] fuel hf
  exact ⟨hs, h1, fun i hi => Option.isSome_iff_exists.mp (h3 i hi)⟩

/-- Witness for C10's amended statement: the two-node hierarchy (container
0 over leaf 1) gets a height for both nodes. -/
theorem claim_C10_acyclic_heights_terminate_witness :
    (∀ n c, c ∈ childrenFn specsPair n → (if c = 0 then 1 else 0) < (if n = 0 then 1 else 0)) ∧
    (∃ F, ∀ fuel, F ≤ fuel →
      ∃ hs, computeHierarchyHeights (childrenFn specsPair) [0, 1] fuel = some hs ∧
        ∀ i ∈ [0, 1], ∃ h, lookupH hs i = some h) := by
  have hacyc : ∀ n c, c ∈ childrenFn specsPair n →
      (fun k => if k = 0 then 1 else 0) c < (fun k => if k = 0 then 1 else 0) n := by
    intro n c hc
    match n with
    | 0 =>
      simp [childrenFn, findSpec, specsPair] at hc
      subst hc
      decide
    | 1 => simp [childrenFn, findSpec, specsPair] at hc
    | (m+2) =>
      exfalso
      have hnone : findSpec specsPair (m+2) = none := by
        simp [findSpec, specsPair]
      simp [childrenFn, hnone] at hc
  exact ⟨hacyc,
    claim_C10_acyclic_heights_terminate (childrenFn specsPair) [0, 1]
      (fun k => if k = 0 then 1 else 0) hacyc⟩

theorem foldl_max_init_le : ∀ (l : List Nat) (a : Nat), a ≤ l.foldl Nat.max a := by
  intro l
  induction l with
  | nil => intro a; simp
  | cons c cs ih =>
    intro a
    calc a ≤ Nat.max a c := Nat.le_max_left a c
    _ ≤ (c :: cs).foldl Nat.max a := by simpa using ih (Nat.max a c)

theorem le_foldl_max : ∀ (l : List Nat) (a x : Nat), x ∈ l → x ≤ l.foldl Nat.max a := by
  intro l
  induction l with
  | nil =>
    intro a x hx
    cases hx
  | cons c cs ih =>
    intro a x hx
    rcases List.mem_cons.mp hx with rfl | hx'
    · calc x ≤ Nat.max a x := Nat.le_max_right a x
      _ ≤ cs.foldl Nat.max (Nat.max a x) := foldl_max_init_le cs (Nat.max a x)
      _ = (x :: cs).foldl Nat.max a := by simp
    · simpa using ih (Nat.max a c) x hx'

/-- C6: in a successfully built hierarchy, every ELK node's draw-order tag
is the negation of the node's computed hierarchy height, the heights obey
"0 for leaves, else 1 + max child height", and consequently every
container's `z` is strictly below each of its children's `z` — the
container draws behind its expanded contents. -/
theorem claim_C6_z_equals_negated_height
    (specs : List NodeSpec) (d : Nat → Nat)
    (hacyc : ∀ n c, c ∈ childrenFn specs n → d c < d n) :
    ∃ F, ∀ fuel, F ≤ fuel →
      ∃ hs, computeHierarchyHeights (childrenFn specs) (specs.map (·.id)) fuel = some hs ∧
        HeightsSpec (childrenFn specs) hs ∧
        (∀ (spec : NodeSpec) (outs ins : List (Option Side)),
          (createElkNode spec outs ins (graphPropertiesOf specs hs)).zF =
            -(((lookupH hs spec.id).getD 0 : Nat) : Int)) ∧
        (∀ (sa sc : NodeSpec) (outs ins outs' ins' : List (Option Side)),
          findSpec specs sa.id = some sa → sc.id ∈ sa.children →
          (createElkNode sa outs ins (graphPropertiesOf specs hs)).zF <
            (createElkNode sc outs' ins' (graphPropertiesOf specs hs)).zF) := by
  obtain ⟨F, hF⟩ :=
    computeHierarchyHeights_acyclic_success (childrenFn specs) d hacyc (specs.map (·.id))
  refine ⟨F, fun fuel hf => ?_⟩
  obtain ⟨hs, h1, _, h3, hsp⟩ := hF [] fuel hf
  have hspec : HeightsSpec (childrenFn specs) hs := by
    refine hsp ?_
    intro a ha hla
    simp [lookupH] at hla
  refine ⟨hs, h1, hspec, ?_, ?_⟩
  · intro spec outs ins
    simp [createElkNode, ElkNode.zF, graphPropertiesOf]
  · intro sa sc outs ins outs' ins' hfind hmem
    have hsa_mem : sa ∈ specs := List.mem_of_find?_eq_some hfind
    have hid_mem : sa.id ∈ specs.map (·.id) := List.mem_map.mpr ⟨sa, hsa_mem, rfl⟩
    obtain ⟨ha, hha⟩ := Option.isSome_iff_exists.mp (h3 sa.id hid_mem)
    have hchf : childrenFn specs sa.id = sa.children := by simp [childrenFn, hfind]
    rcases hspec sa.id ha hha with ⟨hc0, _⟩ | ⟨chs, hne, hlk, heq⟩
    · rw [hchf] at hc0
      rw [hc0] at hmem
      cases hmem
    · rw [hchf] at hlk
      obtain ⟨hc, hhc, hcm⟩ := lookupHeights_mem hs sa.children chs hlk sc.id hmem
      have hle : hc ≤ chs.foldl Nat.max 0 := le_foldl_max chs 0 hc hcm
      simp only [createElkNode, ElkNode.zF, graphPropertiesOf]
      rw [hha, hhc]
      simp only [Option.getD_some]
      omega

/-- Witness for C6: in the two-node hierarchy (container 0 over leaf 1)
the heights and z-order relation hold. -/
theorem claim_C6_z_equals_negated_height_witness :
    (∀ n c, c ∈ childrenFn specsPair n →
      (fun k => if k = 0 then (1 : Nat) else 0) c < (fun k => if k = 0 then 1 else 0) n) ∧
    (∃ F, ∀ fuel, F ≤ fuel →
      ∃ hs, computeHierarchyHeights (childrenFn specsPair) (specsPair.map (·.id)) fuel = some hs ∧
        HeightsSpec (childrenFn specsPair) hs ∧
        (∀ (spec : NodeSpec) (outs ins : List (Option Side)),
          (createElkNode spec outs ins (graphPropertiesOf specsPair hs)).zF =
            -(((lookupH hs spec.id).getD 0 : Nat) : Int)) ∧
        (∀ (sa sc : NodeSpec) (outs ins outs' ins' : List (Option Side)),
          findSpec specsPair sa.id = some sa → sc.id ∈ sa.children →
          (createElkNode sa outs ins (graphPropertiesOf specsPair hs)).zF <
            (createElkNode sc outs' ins' (graphPropertiesOf specsPair hs)).zF)) := by
  have hacyc : ∀ n c, c ∈ childrenFn specsPair n →
      (fun k => if k = 0 then (1 : Nat) else 0) c < (fun k => if k = 0 then 1 else 0) n := by
    intro n c hc
    match n with
    | 0 =>
      simp [childrenFn, findSpec, specsPair] at hc
      subst hc
      decide
    | 1 => simp [childrenFn, findSpec, specsPair] at hc
    | (m+2) =>
      exfalso
      have hnone : findSpec specsPair (m+2) = none := by
        simp [findSpec, specsPair]
      simp [childrenFn, hnone] at hc
  exact ⟨hacyc,
    claim_C6_z_equals_negated_height specsPair (fun k => if k = 0 then 1 else 0) hacyc⟩

/-! ### Edge reassembly lemmas -/

theorem slicesOfG_pushSlice (groups : EdgeGroups) (key : Nat) (z : Int) (sl : EdgeSlice)
    (eid : Nat) :
    slicesOfG (pushSlice groups key z sl) eid =
      if key = eid then slicesOfG groups eid ++ [sl] else slicesOfG groups eid := by
  simp only [slicesOfG, pushSlice]
  by_cases hke : eid = key
  · subst hke
    simp only [if_pos rfl]
    cases hgk : groups eid <;> simp
  · rw [if_neg hke, if_neg fun h => hke h.symm]

theorem foldl_pushSlice_slices (off : Point) (eid : Nat) :
    ∀ (edges : List ElkEdge) (groups : EdgeGroups),
      slicesOfG
        (edges.foldl
          (fun gr e => pushSlice gr e.edgeId e.z ⟨elkEdgeToPointArray e off, e.index⟩) groups)
        eid =
      slicesOfG groups eid ++ edgeSlicesFor edges off eid := by
  intro edges
  induction edges with
  | nil =>
    intro groups
    simp [edgeSlicesFor]
  | cons e es ih =>
    intro groups
    rw [List.foldl_cons, ih]
    rw [slicesOfG_pushSlice]
    by_cases he : e.edgeId = eid
    · rw [if_pos he]
      unfold edgeSlicesFor
      rw [List.filter_cons_of_pos (by simp [he])]
      simp
    · rw [if_neg he]
      unfold edgeSlicesFor
      rw [List.filter_cons_of_neg (by simp [he])]

mutual

/-- The group collector appends, per edge id, exactly the slices found in
the subtree (node's own edges first, then the children in order), each
translated by the accumulated offset. -/
theorem edgeGroupsRecurse_slices (node : ElkNode) (groups : EdgeGroups) (off : Point)
    (eid : Nat) :
    slicesOfG (elkGraphToEdgeGroupsRecurse node groups off) eid =
      slicesOfG groups eid ++ collectedSlices node off eid := by
  cases node with
  | mk i x y w h z ports edges children =>
    rw [elkGraphToEdgeGroupsRecurse, collectedSlices]
    rw [edgeGroupsForest_slices children _ off eid]
    rw [foldl_pushSlice_slices off eid edges groups]
    rw [List.append_assoc]

/-- Child-list version of `edgeGroupsRecurse_slices`. -/
theorem edgeGroupsForest_slices (forest : ElkForest) (groups : EdgeGroups) (off : Point)
    (eid : Nat) :
    slicesOfG (edgeGroupsForest forest groups off) eid =
      slicesOfG groups eid ++ collectedForest forest off eid := by
  cases forest with
  | nil =>
    rw [edgeGroupsForest, collectedForest]
    simp
  | cons c rest =>
    rw [edgeGroupsForest, collectedForest]
    rw [edgeGroupsForest_slices rest _ off eid]
    rw [edgeGroupsRecurse_slices c groups (off + c.pos) eid]
    rw [List.append_assoc]

end

/-- Groups never hold an empty slice list: creation starts with one slice
and pushes only append. -/
theorem pushSlice_ne_nil (groups : EdgeGroups) (key : Nat) (z : Int) (sl : EdgeSlice)
    (hinv : ∀ eid grp, groups eid = some grp → grp.edgeSlices ≠ []) :
    ∀ eid grp, pushSlice groups key z sl eid = some grp → grp.edgeSlices ≠ [] := by
  intro eid grp h
  unfold pushSlice at h
  split at h
  · split at h
    · simp only [Option.some.injEq] at h
      subst h
      simp
    · next g hg =>
      simp only [Option.some.injEq] at h
      subst h
      simp
  · exact hinv eid grp h

theorem foldl_pushSlice_ne_nil (off : Point) :
    ∀ (edges : List ElkEdge) (groups : EdgeGroups),
      (∀ eid grp, groups eid = some grp → grp.edgeSlices ≠ []) →
      ∀ eid grp,
        (edges.foldl
          (fun gr e => pushSlice gr e.edgeId e.z ⟨elkEdgeToPointArray e off, e.index⟩) groups)
          eid = some grp → grp.edgeSlices ≠ [] := by
  intro edges
  induction edges with
  | nil => intro groups hinv; exact hinv
  | cons e es ih =>
    intro groups hinv
    rw [List.foldl_cons]
    exact ih _ (pushSlice_ne_nil groups e.edgeId e.z _ hinv)

mutual

/-- Nonempty-group invariant through the recursion over a node. -/
theorem edgeGroupsRecurse_ne_nil (node : ElkNode) (groups : EdgeGroups) (off : Point)
    (hinv : ∀ eid grp, groups eid = some grp → grp.edgeSlices ≠ []) :
    ∀ eid grp, elkGraphToEdgeGroupsRecurse node groups off eid = some grp →
      grp.edgeSlices ≠ [] := by
  cases node with
  | mk i x y w h z ports edges children =>
    rw [elkGraphToEdgeGroupsRecurse]
    exact edgeGroupsForest_ne_nil children _ off (foldl_pushSlice_ne_nil off edges groups hinv)

/-- Nonempty-group invariant through the recursion over a child list. -/
theorem edgeGroupsForest_ne_nil (forest : ElkForest) (groups : EdgeGroups) (off : Point)
    (hinv : ∀ eid grp, groups eid = some grp → grp.edgeSlices ≠ []) :
    ∀ eid grp, edgeGroupsForest forest groups off eid = some grp → grp.edgeSlices ≠ [] := by
  cases forest with
  | nil =>
    rw [edgeGroupsForest]
    exact hinv
  | cons c rest =>
    rw [edgeGroupsForest]
    exact edgeGroupsForest_ne_nil rest _ off (edgeGroupsRecurse_ne_nil c groups (off + c.pos) hinv)

end

theorem point_add_def (a b : Point) : a + b = ⟨a.x + b.x, a.y + b.y⟩ := rfl

/-- Translating an edge's section by an offset is a pointwise shift of the
untranslated point array. -/
theorem elkEdgeToPointArray_shift (e : ElkEdge) (off : Point) :
    elkEdgeToPointArray e off = (elkEdgeToPointArray e ⟨0, 0⟩).map (· + off) := by
  unfold elkEdgeToPointArray
  cases e.sections with
  | nil => rfl
  | cons sec rest =>
    have hpt : ∀ p : Point, p + (⟨0, 0⟩ : Point) + off = p + off := by
      intro p
      simp [point_add_def]
    simp [List.map_append, List.map_map, Function.comp, hpt]

theorem sum_drop_one_lengths : ∀ l : List EdgeSlice, (∀ sl ∈ l, sl.points ≠ []) →
    (l.map fun sl => sl.points.length - 1).sum + l.length =
      (l.map fun sl => sl.points.length).sum := by
  intro l
  induction l with
  | nil => intro _; simp
  | cons sl sls ih =>
    intro hne
    have h1 : 1 ≤ sl.points.length :=
      List.length_pos.mpr (hne sl (by simp))
    have h2 := ih fun x hx => hne x (by simp [hx])
    simp only [List.map_cons, List.sum_cons, List.length_cons]
    omega

/-- C5: edge reassembly.  For every edge with a group in the solved graph
(and no degenerate empty slices): the group's slices are exactly the
edge's segments gathered over the containment tree, each translated by its
owning container's accumulated offset from the root (and translation is a
pointwise shift of the untranslated points); the group is nonempty; the
published transform concatenates the slices sorted in ascending stored
sequence index, keeping the first slice's first point and dropping each
following slice's first (duplicated) point, so the polyline length is the
sum of the slices' point counts minus (number of slices − 1). -/
theorem claim_C5_edge_reassembly (graph : ElkNode) (eid : Nat) (grp : EdgeGroupData)
    (hgrp : elkGraphToEdgeGroups graph eid = some grp)
    (hne : ∀ sl ∈ grp.edgeSlices, sl.points ≠ []) :
    grp.edgeSlices = collectedSlices graph ⟨0, 0⟩ eid ∧
    grp.edgeSlices ≠ [] ∧
    (∀ (e : ElkEdge) (off : Point),
      elkEdgeToPointArray e off = (elkEdgeToPointArray e ⟨0, 0⟩).map (· + off)) ∧
    (∃ tr sorted, edgeTransformsOf graph eid = some tr ∧
      sorted.Perm grp.edgeSlices ∧
      List.Pairwise (fun a b : EdgeSlice => a.order ≤ b.order) sorted ∧
      (∃ (first : EdgeSlice) (rest : List EdgeSlice) (p : Point) (ps : List Point),
        sorted = first :: rest ∧ first.points = p :: ps ∧
        tr.points = p :: (sorted.map fun sl => sl.points.drop 1).flatten) ∧
      tr.points.length + (grp.edgeSlices.length - 1) =
        (grp.edgeSlices.map fun sl => sl.points.length).sum) := by
  have hchar : grp.edgeSlices = collectedSlices graph ⟨0, 0⟩ eid := by
    have hsl := edgeGroupsRecurse_slices graph (fun _ => none) ⟨0, 0⟩ eid
    rw [elkGraphToEdgeGroups] at hgrp
    simpa [slicesOfG, hgrp] using hsl
  have hnonempty : grp.edgeSlices ≠ [] := by
    rw [elkGraphToEdgeGroups] at hgrp
    exact edgeGroupsRecurse_ne_nil graph (fun _ => none) ⟨0, 0⟩
      (fun _ _ h => Option.noConfusion h) eid grp hgrp
  refine ⟨hchar, hnonempty, fun e off => elkEdgeToPointArray_shift e off, ?_⟩
  refine ⟨assembleGroup grp, grp.edgeSlices.mergeSort (fun a b => a.order ≤ b.order), ?_, ?_, ?_,
    ?_, ?_⟩
  · simp [edgeTransformsOf, hgrp]
  · exact List.mergeSort_perm grp.edgeSlices _
  · have hp := @List.sorted_mergeSort EdgeSlice
      (fun a b : EdgeSlice => decide (a.order ≤ b.order))
      (fun a b c hab hbc => by
        simp only [decide_eq_true_eq] at *
        omega)
      (fun a b => by
        simp only [Bool.or_eq_true, decide_eq_true_eq]
        omega)
      grp.edgeSlices
    exact hp.imp fun h => of_decide_eq_true h
  · have hlen : (grp.edgeSlices.mergeSort (fun a b => a.order ≤ b.order)).length =
        grp.edgeSlices.length := (List.mergeSort_perm grp.edgeSlices _).length_eq
    cases hsorted : grp.edgeSlices.mergeSort (fun a b => a.order ≤ b.order) with
    | nil =>
      rw [hsorted] at hlen
      exact absurd (List.length_eq_zero.mp hlen.symm) hnonempty
    | cons first rest =>
      have hfmem : first ∈ grp.edgeSlices := by
        have : first ∈ grp.edgeSlices.mergeSort (fun a b => a.order ≤ b.order) := by
          rw [hsorted]
          simp
        exact (List.mergeSort_perm grp.edgeSlices _).mem_iff.mp this
      cases hfp : first.points with
      | nil => exact absurd hfp (hne first hfmem)
      | cons p ps =>
        refine ⟨first, rest, p, ps, rfl, hfp, ?_⟩
        simp [assembleGroup, hsorted, hfp]
  · have hperm := List.mergeSort_perm grp.edgeSlices
      (fun a b : EdgeSlice => decide (a.order ≤ b.order))
    have hsum : ((grp.edgeSlices.mergeSort fun a b => a.order ≤ b.order).map
          fun sl => sl.points.length).sum =
        (grp.edgeSlices.map fun sl => sl.points.length).sum :=
      ((List.mergeSort_perm grp.edgeSlices _).map _).sum_eq
    have hlen : (grp.edgeSlices.mergeSort (fun a b => a.order ≤ b.order)).length =
        grp.edgeSlices.length := (List.mergeSort_perm grp.edgeSlices _).length_eq
    have hne' : ∀ sl ∈ grp.edgeSlices.mergeSort (fun a b => a.order ≤ b.order),
        sl.points ≠ [] := by
      intro sl hsl
      exact hne sl ((List.mergeSort_perm grp.edgeSlices _).mem_iff.mp hsl)
    have hdrop := sum_drop_one_lengths
      (grp.edgeSlices.mergeSort fun a b => a.order ≤ b.order) hne'
    have hnz : grp.edgeSlices.length ≠ 0 := fun h => hnonempty (List.length_eq_zero.mp h)
    cases hsorted : grp.edgeSlices.mergeSort (fun a b => a.order ≤ b.order) with
    | nil =>
      rw [hsorted] at hlen
      exact absurd (List.length_eq_zero.mp hlen.symm) hnonempty
    | cons first rest =>
      have hfmem : first ∈ grp.edgeSlices := by
        have : first ∈ grp.edgeSlices.mergeSort (fun a b => a.order ≤ b.order) := by
          rw [hsorted]
          simp
        exact (List.mergeSort_perm grp.edgeSlices _).mem_iff.mp this
      cases hfp : first.points with
      | nil => exact absurd hfp (hne first hfmem)
      | cons p ps =>
        have hpts : (assembleGroup grp).points =
            p :: ((first :: rest).map fun sl => sl.points.drop 1).flatten := by
          simp [assembleGroup, hsorted, hfp]
        rw [hpts]
        rw [hsorted] at hdrop hlen hsum
        rw [List.length_cons, List.length_flatten, List.map_map]
        have hcomp : (List.length ∘ fun sl : EdgeSlice => sl.points.drop 1) =
            fun sl : EdgeSlice => sl.points.length - 1 := by
          funext sl
          simp
        rw [hcomp]
        omega

/-- Witness for C5: the two-slice edge 9 of `solvedTreeEx` reassembles into
a 3-point polyline (4 points minus 1 duplicated boundary point). -/
theorem claim_C5_edge_reassembly_witness :
    (elkGraphToEdgeGroups solvedTreeEx 9 = some grpEx ∧
      ∀ sl ∈ grpEx.edgeSlices, sl.points ≠ []) ∧
    (grpEx.edgeSlices = collectedSlices solvedTreeEx ⟨0, 0⟩ 9 ∧
      grpEx.edgeSlices ≠ [] ∧
      (∀ (e : ElkEdge) (off : Point),
        elkEdgeToPointArray e off = (elkEdgeToPointArray e ⟨0, 0⟩).map (· + off)) ∧
      (∃ tr sorted, edgeTransformsOf solvedTreeEx 9 = some tr ∧
        sorted.Perm grpEx.edgeSlices ∧
        List.Pairwise (fun a b : EdgeSlice => a.order ≤ b.order) sorted ∧
        (∃ (first : EdgeSlice) (rest : List EdgeSlice) (p : Point) (ps : List Point),
          sorted = first :: rest ∧ first.points = p :: ps ∧
          tr.points = p :: (sorted.map fun sl => sl.points.drop 1).flatten) ∧
        tr.points.length + (grpEx.edgeSlices.length - 1) =
          (grpEx.edgeSlices.map fun sl => sl.points.length).sum)) := by
  have h1 : elkGraphToEdgeGroups solvedTreeEx 9 = some grpEx := by decide
  have h2 : ∀ sl ∈ grpEx.edgeSlices, sl.points ≠ [] := by decide
  exact ⟨⟨h1, h2⟩, claim_C5_edge_reassembly solvedTreeEx 9 grpEx h1 h2⟩

/-! ### Ancestor-chain lemmas for the slicing loop -/

theorem ancestorAfter_none (g : GraphProperties) : ∀ k, ancestorAfter g k none = none
  | 0 => rfl
  | _+1 => rfl

theorem ancestorAfter_add (g : GraphProperties) :
    ∀ (a b : Nat) (x : Option Nat),
      ancestorAfter g (a + b) x = ancestorAfter g b (ancestorAfter g a x) := by
  intro a
  induction a with
  | zero => intro b x; rw [Nat.zero_add, ancestorAfter]
  | succ a ih =>
    intro b x
    cases x with
    | none => rw [ancestorAfter_none, ancestorAfter_none, ancestorAfter_none]
    | some v =>
      rw [show a + 1 + b = (a + b) + 1 by omega]
      rw [ancestorAfter, ancestorAfter]
      exact ih b (g.parent v)

theorem ancestorAfter_step (g : GraphProperties) (i : Nat) (s sv : Nat)
    (h : ancestorAfter g i (some s) = some sv) :
    ancestorAfter g (i + 1) (some s) = g.parent sv := by
  rw [ancestorAfter_add g i 1, h]
  rfl

/-- A strict ancestor is strictly higher in hierarchy height. -/
theorem height_lt_of_ancestor (g : GraphProperties) (hPH : ParentHeightOK g) :
    ∀ (k : Nat) (u ℓ : Nat), ancestorAfter g (k + 1) (some u) = some ℓ →
      g.height u < g.height ℓ := by
  intro k
  induction k with
  | zero =>
    intro u ℓ h
    exact hPH u ℓ (by simpa [ancestorAfter] using h)
  | succ k ih =>
    intro u ℓ h
    rw [show k + 1 + 1 = (k + 1) + 1 from rfl, ancestorAfter] at h
    cases hp : g.parent u with
    | none =>
      rw [hp, ancestorAfter_none] at h
      cases h
    | some p =>
      rw [hp] at h
      exact lt_trans (hPH u p hp) (ih p ℓ h)

/-- No node is its own strict ancestor. -/
theorem no_ancestor_cycle (g : GraphProperties) (hPH : ParentHeightOK g) (k ℓ : Nat)
    (h : ancestorAfter g (k + 1) (some ℓ) = some ℓ) : False :=
  lt_irrefl _ (height_lt_of_ancestor g hPH k ℓ ℓ h)

/-- Below their meeting point, the start-side and end-side ancestor chains are disjoint. -/
theorem anc_no_meet (g : GraphProperties) (hPH : ParentHeightOK g)
    (s t m n : Nat) (L : Option Nat)
    (hm : ancestorAfter g m (some s) = L)
    (hn : ancestorAfter g n (some t) = L)
    (hS : ∀ i, i < m → (ancestorAfter g i (some s)).isSome)
    (hT : ∀ j, j < n → (ancestorAfter g j (some t)).isSome)
    (hchild : ancestorAfter g (m - 1) (some s) ≠ ancestorAfter g (n - 1) (some t)) :
    ∀ i j, i < m → j < n → ancestorAfter g i (some s) ≠ ancestorAfter g j (some t) := by
  intro i j hi hj heq
  obtain ⟨c, hc⟩ := Option.isSome_iff_exists.mp (hS i hi)
  have hct : ancestorAfter g j (some t) = some c := by rw [← heq, hc]
  have hmc : ancestorAfter g (m - i) (some c) = L := by
    have h2 := ancestorAfter_add g i (m - i) (some s)
    rw [show i + (m - i) = m by omega, hm, hc] at h2
    exact h2.symm
  have hnc : ancestorAfter g (n - j) (some c) = L := by
    have h2 := ancestorAfter_add g j (n - j) (some t)
    rw [show j + (n - j) = n by omega, hn, hct] at h2
    exact h2.symm
  have hk : m - i = n - j := by
    rcases Nat.lt_trichotomy (m - i) (n - j) with hlt | heqk | hgt
    · cases L with
      | some ℓ =>
        have hcyc : ancestorAfter g ((n - j) - (m - i)) (some ℓ) = some ℓ := by
          have h2 := ancestorAfter_add g (m - i) ((n - j) - (m - i)) (some c)
          rw [show (m - i) + ((n - j) - (m - i)) = n - j by omega, hnc, hmc] at h2
          exact h2.symm
        obtain ⟨k, hkk⟩ : ∃ k, (n - j) - (m - i) = k + 1 := ⟨(n - j) - (m - i) - 1, by omega⟩
        rw [hkk] at hcyc
        exact absurd hcyc (fun hcyc => no_ancestor_cycle g hPH k ℓ hcyc)
      | none =>
        have hsome := hT (j + (m - i)) (by omega)
        rw [ancestorAfter_add, hct, hmc] at hsome
        simp at hsome
    · exact heqk
    · cases L with
      | some ℓ =>
        have hcyc : ancestorAfter g ((m - i) - (n - j)) (some ℓ) = some ℓ := by
          have h2 := ancestorAfter_add g (n - j) ((m - i) - (n - j)) (some c)
          rw [show (n - j) + ((m - i) - (n - j)) = m - i by omega, hmc, hnc] at h2
          exact h2.symm
        obtain ⟨k, hkk⟩ : ∃ k, (m - i) - (n - j) = k + 1 := ⟨(m - i) - (n - j) - 1, by omega⟩
        rw [hkk] at hcyc
        exact absurd hcyc (fun hcyc => no_ancestor_cycle g hPH k ℓ hcyc)
      | none =>
        have hsome := hS (i + (n - j)) (by omega)
        rw [ancestorAfter_add, hc, hnc] at hsome
        simp at hsome
  have h1 : ancestorAfter g (m - 1) (some s) = ancestorAfter g ((m - i) - 1) (some c) := by
    have h2 := ancestorAfter_add g i ((m - i) - 1) (some s)
    rw [show i + ((m - i) - 1) = m - 1 by omega, hc] at h2
    exact h2
  have h2 : ancestorAfter g (n - 1) (some t) = ancestorAfter g ((n - j) - 1) (some c) := by
    have h3 := ancestorAfter_add g j ((n - j) - 1) (some t)
    rw [show j + ((n - j) - 1) = n - 1 by omega, hct] at h3
    exact h3
  exact hchild (by rw [h1, h2, hk])

/-- Branch characterization: a source-side advance of the slicing loop. -/
theorem sliceStep_fromAdvance_spec (g : GraphProperties) (edge : EdgeSpec) (k : Nat)
    (st : SliceState) (ps : Nat)
    (hclose : g.parent st.startId ≠ g.parent st.endId)
    (hps : g.parent st.startId = some ps)
    (hcond : ∀ pt, g.parent st.endId = some pt → ¬ g.height ps > g.height pt)
    (hlt : g.height st.startId < g.height ps) :
    ∃ st', sliceStep g edge (k + 2) st = some (.next st') ∧
      st'.startId = ps ∧ st'.endId = st.endId ∧
      st'.fromSegs.length = st.fromSegs.length + 1 ∧
      st'.toSegs.length = st.toSegs.length := by
  have hwalk := segmentParentWalk_up g st.startId ps k hps hlt
  unfold sliceStep
  rw [if_neg hclose]
  cases hpe : g.parent st.endId with
  | none =>
    simp only [hps]
    unfold fromAdvanceStep mkSegment
    rw [hwalk]
    exact ⟨_, rfl, rfl, rfl, by simp, rfl⟩
  | some pt =>
    simp only [hps]
    rw [if_neg (hcond pt hpe)]
    unfold fromAdvanceStep mkSegment
    rw [hwalk]
    exact ⟨_, rfl, rfl, rfl, by simp, rfl⟩

/-- Branch characterization: a target-side advance of the slicing loop. -/
theorem sliceStep_toAdvance_spec (g : GraphProperties) (edge : EdgeSpec) (k : Nat)
    (st : SliceState) (pe : Nat)
    (hclose : g.parent st.startId ≠ g.parent st.endId)
    (hpe : g.parent st.endId = some pe)
    (hcond : g.parent st.startId = none ∨
      ∃ ps, g.parent st.startId = some ps ∧ g.height pe < g.height ps)
    (hlt : g.height st.endId < g.height pe) :
    ∃ st', sliceStep g edge (k + 2) st = some (.next st') ∧
      st'.startId = st.startId ∧ st'.endId = pe ∧
      st'.fromSegs.length = st.fromSegs.length ∧
      st'.toSegs.length = st.toSegs.length + 1 := by
  have hwalk := segmentParentWalk_down g st.endId pe k hpe hlt
  unfold sliceStep
  rw [if_neg hclose]
  rcases hcond with hnone | ⟨ps, hps, hgt⟩
  · simp only [hnone]
    unfold toAdvanceStep
    simp only [hpe]
    unfold mkSegment
    rw [hwalk]
    exact ⟨_, rfl, rfl, rfl, rfl, by simp⟩
  · simp only [hps, hpe]
    rw [if_pos hgt]
    unfold toAdvanceStep
    simp only [hpe]
    unfold mkSegment
    rw [hwalk]
    exact ⟨_, rfl, rfl, rfl, rfl, by simp⟩

/-- Branch characterization: the closing step of the slicing loop. -/
theorem sliceStep_closing_spec (g : GraphProperties) (edge : EdgeSpec) (k : Nat)
    (st : SliceState)
    (hPH : ParentHeightOK g)
    (hclose : g.parent st.startId = g.parent st.endId)
    (hne : st.startId ≠ st.endId) :
    ∃ res, sliceStep g edge (k + 3) st = some (.finished res) ∧
      res.segments.length = st.fromSegs.length + st.toSegs.length + 1 := by
  have hwalk := segmentParentWalk_siblings g st.startId st.endId k hPH hclose hne
  unfold sliceStep
  rw [if_pos hclose]
  unfold closingStep mkSegment
  rw [hwalk]
  refine ⟨_, rfl, ?_⟩
  simp
  omega

/-- Segment count of the slicing loop: with the start cursor `i` hops up from the
source and the end cursor `j` hops up from the target, the loop finishes and emits
exactly one segment per remaining hop on each side plus the closing segment. -/
theorem sliceEdgeLoop_count (g : GraphProperties) (edge : EdgeSpec)
    (m n : Nat) (L : Option Nat)
    (hPH : ParentHeightOK g)
    (hm : ancestorAfter g m (some edge.startId) = L)
    (hn : ancestorAfter g n (some edge.endId) = L)
    (hS : ∀ i, i < m → (ancestorAfter g i (some edge.startId)).isSome)
    (hT : ∀ j, j < n → (ancestorAfter g j (some edge.endId)).isSome)
    (hchild : ancestorAfter g (m - 1) (some edge.startId) ≠
      ancestorAfter g (n - 1) (some edge.endId)) :
    ∀ (f i j : Nat) (st : SliceState),
      i < m → j < n →
      ancestorAfter g i (some edge.startId) = some st.startId →
      ancestorAfter g j (some edge.endId) = some st.endId →
      (m - 1 - i) + (n - 1 - j) + 3 ≤ f →
      ∃ res, sliceEdgeLoop g edge f st = some res ∧
        res.segments.length = st.fromSegs.length + st.toSegs.length +
          ((m - 1 - i) + (n - 1 - j)) + 1 := by
  intro f
  induction f with
  | zero =>
    intro i j st hi hj has hat hfuel
    exact absurd hfuel (by omega)
  | succ f ih =>
    intro i j st hi hj has hat hfuel
    have hpsv : ancestorAfter g (i + 1) (some edge.startId) = g.parent st.startId :=
      ancestorAfter_step g i edge.startId st.startId has
    have hptv : ancestorAfter g (j + 1) (some edge.endId) = g.parent st.endId :=
      ancestorAfter_step g j edge.endId st.endId hat
    by_cases hclose : g.parent st.startId = g.parent st.endId
    · -- closing iteration: both cursors must already be children of the meet
      have hcorner : i + 1 = m ∧ j + 1 = n := by
        cases hps : g.parent st.startId with
        | none =>
          have him : i + 1 = m := by
            by_contra hcon
            have hsm := hS (i + 1) (by omega)
            rw [hpsv, hps] at hsm
            simp at hsm
          have hpt : g.parent st.endId = none := by rw [← hclose, hps]
          have hjn : j + 1 = n := by
            by_contra hcon
            have hsn := hT (j + 1) (by omega)
            rw [hptv, hpt] at hsn
            simp at hsn
          exact ⟨him, hjn⟩
        | some c =>
          have hpt : g.parent st.endId = some c := by rw [← hclose, hps]
          have hcs : ancestorAfter g (i + 1) (some edge.startId) = some c := by
            rw [hpsv, hps]
          have hct : ancestorAfter g (j + 1) (some edge.endId) = some c := by
            rw [hptv, hpt]
          rcases Nat.lt_or_ge (i + 1) m with hi2 | hi2
          · rcases Nat.lt_or_ge (j + 1) n with hj2 | hj2
            · exact absurd (hcs.trans hct.symm)
                (anc_no_meet g hPH edge.startId edge.endId m n L hm hn hS hT hchild
                  (i + 1) (j + 1) hi2 hj2)
            · exfalso
              have hj1 : j + 1 = n := by omega
              have hL : L = some c := by rw [← hn, ← hj1, hct]
              have hanc : ancestorAfter g (m - (i + 1)) (some c) = some c := by
                have h2 := ancestorAfter_add g (i + 1) (m - (i + 1)) (some edge.startId)
                rw [show (i + 1) + (m - (i + 1)) = m by omega, hm, hL, hcs] at h2
                exact h2.symm
              obtain ⟨k', hk'⟩ : ∃ k', m - (i + 1) = k' + 1 := ⟨m - (i + 1) - 1, by omega⟩
              rw [hk'] at hanc
              exact no_ancestor_cycle g hPH k' c hanc
          · rcases Nat.lt_or_ge (j + 1) n with hj2 | hj2
            · exfalso
              have hi1 : i + 1 = m := by omega
              have hL : L = some c := by rw [← hm, ← hi1, hcs]
              have hanc : ancestorAfter g (n - (j + 1)) (some c) = some c := by
                have h2 := ancestorAfter_add g (j + 1) (n - (j + 1)) (some edge.endId)
                rw [show (j + 1) + (n - (j + 1)) = n by omega, hn, hL, hct] at h2
                exact h2.symm
              obtain ⟨k', hk'⟩ : ∃ k', n - (j + 1) = k' + 1 := ⟨n - (j + 1) - 1, by omega⟩
              rw [hk'] at hanc
              exact no_ancestor_cycle g hPH k' c hanc
            · exact ⟨by omega, by omega⟩
      obtain ⟨him, hjn⟩ := hcorner
      have hne : st.startId ≠ st.endId := by
        intro hEq
        apply hchild
        rw [show m - 1 = i by omega, show n - 1 = j by omega, has, hat, hEq]
      obtain ⟨k, hk⟩ : ∃ k, f + 1 = k + 3 := ⟨f - 2, by omega⟩
      rw [hk]
      obtain ⟨res, hres, hlen⟩ := sliceStep_closing_spec g edge k st hPH hclose hne
      refine ⟨res, ?_, ?_⟩
      · rw [sliceEdgeLoop]
        rw [show k + 2 + 1 = k + 3 from rfl, hres]
      · rw [hlen]
        omega
    · -- advancing iteration
      cases hps : g.parent st.startId with
      | none =>
        -- the source cursor is already at the root context: target-side advance
        have him : i + 1 = m := by
          by_contra hcon
          have hsm := hS (i + 1) (by omega)
          rw [hpsv, hps] at hsm
          simp at hsm
        have hLnone : L = none := by rw [← hm, ← him, hpsv, hps]
        have hjn : j + 1 < n := by
          rcases Nat.lt_or_ge (j + 1) n with h | h
          · exact h
          · exfalso
            apply hclose
            have h2 := hptv
            rw [show j + 1 = n by omega, hn, hLnone] at h2
            rw [hps, ← h2]
        have hpeS := hT (j + 1) (by omega)
        rw [hptv] at hpeS
        obtain ⟨pe, hpe⟩ := Option.isSome_iff_exists.mp hpeS
        obtain ⟨k, hk⟩ : ∃ k, f + 1 = k + 2 := ⟨f - 1, by omega⟩
        rw [hk]
        obtain ⟨st', hstep, hs1, hs2, hs3, hs4⟩ :=
          sliceStep_toAdvance_spec g edge k st pe hclose hpe (Or.inl hps)
            (hPH st.endId pe hpe)
        refine ?_
        have has' : ancestorAfter g i (some edge.startId) = some st'.startId := by
          rw [hs1, has]
        have hat' : ancestorAfter g (j + 1) (some edge.endId) = some st'.endId := by
          rw [hs2, hptv, hpe]
        obtain ⟨res, hres, hlen⟩ := ih i (j + 1) st' hi (by omega) has' hat' (by omega)
        refine ⟨res, ?_, ?_⟩
        · rw [show k + 2 = (k + 1) + 1 from rfl, sliceEdgeLoop]
          rw [show k + 1 + 1 = k + 2 from rfl, hstep]
          show sliceEdgeLoop g edge (k + 1) st' = some res
          rw [show k + 1 = f by omega]
          exact hres
        · rw [hlen, hs3, hs4]
          omega
      | some ps =>
        cases hpt : g.parent st.endId with
        | none =>
          -- the target cursor is at the root context: source-side advance
          have hjn : j + 1 = n := by
            by_contra hcon
            have hsn := hT (j + 1) (by omega)
            rw [hptv, hpt] at hsn
            simp at hsn
          have hLnone : L = none := by rw [← hn, ← hjn, hptv, hpt]
          have him : i + 1 < m := by
            rcases Nat.lt_or_ge (i + 1) m with h | h
            · exact h
            · exfalso
              have h2 := hpsv
              rw [show i + 1 = m by omega, hm, hLnone, hps] at h2
              cases h2
          obtain ⟨k, hk⟩ : ∃ k, f + 1 = k + 2 := ⟨f - 1, by omega⟩
          rw [hk]
          obtain ⟨st', hstep, hs1, hs2, hs3, hs4⟩ :=
            sliceStep_fromAdvance_spec g edge k st ps hclose hps
              (fun pt h => by rw [hpt] at h; cases h) (hPH st.startId ps hps)
          have has' : ancestorAfter g (i + 1) (some edge.startId) = some st'.startId := by
            rw [hs1, hpsv, hps]
          have hat' : ancestorAfter g j (some edge.endId) = some st'.endId := by
            rw [hs2, hat]
          obtain ⟨res, hres, hlen⟩ := ih (i + 1) j st' him hj has' hat' (by omega)
          refine ⟨res, ?_, ?_⟩
          · rw [show k + 2 = (k + 1) + 1 from rfl, sliceEdgeLoop]
            rw [show k + 1 + 1 = k + 2 from rfl, hstep]
            show sliceEdgeLoop g edge (k + 1) st' = some res
            rw [show k + 1 = f by omega]
            exact hres
          · rw [hlen, hs3, hs4]
            omega
        | some pt =>
          by_cases hcmp : g.height ps > g.height pt
          · -- deeper on the source side: target-side advance
            have hjn : j + 1 < n := by
              by_contra hcon
              have hj1 : j + 1 = n := by omega
              have hL : L = some pt := by rw [← hn, ← hj1, hptv, hpt]
              rcases Nat.lt_or_ge (i + 1) m with hlt2 | hge2
              · have hanc : ancestorAfter g (m - (i + 1)) (some ps) = some pt := by
                  have h2 := ancestorAfter_add g (i + 1) (m - (i + 1)) (some edge.startId)
                  rw [show (i + 1) + (m - (i + 1)) = m by omega, hm, hL, hpsv, hps] at h2
                  exact h2.symm
                obtain ⟨k', hk'⟩ : ∃ k', m - (i + 1) = k' + 1 := ⟨m - (i + 1) - 1, by omega⟩
                rw [hk'] at hanc
                have := height_lt_of_ancestor g hPH k' ps pt hanc
                omega
              · apply hclose
                have h2 := hpsv
                rw [show i + 1 = m by omega, hm, hL] at h2
                rw [hpt, ← h2]
            obtain ⟨k, hk⟩ : ∃ k, f + 1 = k + 2 := ⟨f - 1, by omega⟩
            rw [hk]
            obtain ⟨st', hstep, hs1, hs2, hs3, hs4⟩ :=
              sliceStep_toAdvance_spec g edge k st pt hclose hpt
                (Or.inr ⟨ps, hps, hcmp⟩) (hPH st.endId pt hpt)
            have has' : ancestorAfter g i (some edge.startId) = some st'.startId := by
              rw [hs1, has]
            have hat' : ancestorAfter g (j + 1) (some edge.endId) = some st'.endId := by
              rw [hs2, hptv, hpt]
            obtain ⟨res, hres, hlen⟩ := ih i (j + 1) st' hi (by omega) has' hat' (by omega)
            refine ⟨res, ?_, ?_⟩
            · rw [show k + 2 = (k + 1) + 1 from rfl, sliceEdgeLoop]
              rw [show k + 1 + 1 = k + 2 from rfl, hstep]
              show sliceEdgeLoop g edge (k + 1) st' = some res
              rw [show k + 1 = f by omega]
              exact hres
            · rw [hlen, hs3, hs4]
              omega
          · -- not deeper on the source side: source-side advance
            have him : i + 1 < m := by
              by_contra hcon
              have hi1 : i + 1 = m := by omega
              have hL : L = some ps := by rw [← hm, ← hi1, hpsv, hps]
              rcases Nat.lt_or_ge (j + 1) n with hlt2 | hge2
              · have hanc : ancestorAfter g (n - (j + 1)) (some pt) = some ps := by
                  have h2 := ancestorAfter_add g (j + 1) (n - (j + 1)) (some edge.endId)
                  rw [show (j + 1) + (n - (j + 1)) = n by omega, hn, hL, hptv, hpt] at h2
                  exact h2.symm
                obtain ⟨k', hk'⟩ : ∃ k', n - (j + 1) = k' + 1 := ⟨n - (j + 1) - 1, by omega⟩
                rw [hk'] at hanc
                have := height_lt_of_ancestor g hPH k' pt ps hanc
                omega
              · apply hclose
                have h2 := hptv
                rw [show j + 1 = n by omega, hn, hL] at h2
                rw [hps, ← h2]
            obtain ⟨k, hk⟩ : ∃ k, f + 1 = k + 2 := ⟨f - 1, by omega⟩
            rw [hk]
            obtain ⟨st', hstep, hs1, hs2, hs3, hs4⟩ :=
              sliceStep_fromAdvance_spec g edge k st ps hclose hps
                (fun pt' h => by rw [hpt] at h; injection h with h; rw [← h]; exact hcmp)
                (hPH st.startId ps hps)
            have has' : ancestorAfter g (i + 1) (some edge.startId) = some st'.startId := by
              rw [hs1, hpsv, hps]
            have hat' : ancestorAfter g j (some edge.endId) = some st'.endId := by
              rw [hs2, hat]
            obtain ⟨res, hres, hlen⟩ := ih (i + 1) j st' him hj has' hat' (by omega)
            refine ⟨res, ?_, ?_⟩
            · rw [show k + 2 = (k + 1) + 1 from rfl, sliceEdgeLoop]
              rw [show k + 1 + 1 = k + 2 from rfl, hstep]
              show sliceEdgeLoop g edge (k + 1) st' = some res
              rw [show k + 1 = f by omega]
              exact hres
            · rw [hlen, hs3, hs4]
              omega

/-- C2 (counterexample): for the edge between two top-level siblings both endpoints
are one hop below their lowest common ancestor context, so the claimed count is
1 + 1 = 2 segments, but the slicer emits a single segment. -/
theorem claim_C2_counterexample :
    ancestorAfter gSib 1 (some eSib.startId) = none ∧
    ancestorAfter gSib 1 (some eSib.endId) = none ∧
    ancestorAfter gSib 0 (some eSib.startId) ≠ ancestorAfter gSib 0 (some eSib.endId) ∧
    (sliceEdge gSib eSib 9 emptyPorts emptyPorts).map (fun r => r.segments.length) =
      some 1 ∧ (1 : Nat) ≠ 1 + 1 := by
  decide

/-- C2 (amended): for an edge whose source sits m ≥ 1 hops and whose target sits
n ≥ 1 hops below their lowest common ancestor context, with both chains defined
below the meet and meeting first at the meet, the Edge Slicer emits exactly
m + n − 1 segments: one per hop, the closing segment covering the last hop of
both sides at once. -/
theorem claim_C2_segment_count_hops_sum_minus_one (g : GraphProperties) (edge : EdgeSpec)
    (outP inP : PortMap) (m n f : Nat) (L : Option Nat)
    (hPH : ParentHeightOK g)
    (hm1 : 1 ≤ m) (hn1 : 1 ≤ n)
    (hm : ancestorAfter g m (some edge.startId) = L)
    (hn : ancestorAfter g n (some edge.endId) = L)
    (hS : ∀ i, i < m → (ancestorAfter g i (some edge.startId)).isSome)
    (hT : ∀ j, j < n → (ancestorAfter g j (some edge.endId)).isSome)
    (hchild : ancestorAfter g (m - 1) (some edge.startId) ≠
      ancestorAfter g (n - 1) (some edge.endId))
    (hf : m + n + 1 ≤ f) :
    ∃ res, sliceEdge g edge f outP inP = some res ∧
      res.segments.length = m + n - 1 := by
  have has : ancestorAfter g 0 (some edge.startId) =
      some (sliceInitState edge outP inP).startId := rfl
  have hat : ancestorAfter g 0 (some edge.endId) =
      some (sliceInitState edge outP inP).endId := rfl
  obtain ⟨res, hres, hlen⟩ := sliceEdgeLoop_count g edge m n L hPH hm hn hS hT hchild
    f 0 0 (sliceInitState edge outP inP) (by omega) (by omega) has hat (by omega)
  refine ⟨res, hres, ?_⟩
  simp [sliceInitState] at hlen
  omega

/-- C2 (witness): the one-level hop example: source 2 at top level (1 hop to the
root context), target 3 inside container 1 (2 hops), 1 + 2 − 1 = 2 segments. -/
theorem claim_C2_segment_count_hops_sum_minus_one_witness :
    ∃ res, sliceEdge gHop edgeHop 9 emptyPorts emptyPorts = some res ∧
      res.segments.length = 1 + 2 - 1 := by
  refine claim_C2_segment_count_hops_sum_minus_one gHop edgeHop emptyPorts emptyPorts
    1 2 9 none ?_ (by decide) (by decide) (by decide) (by decide) ?_ ?_ (by decide) (by decide)
  · intro a p h
    by_cases ha : a = 3
    · subst ha
      have hp : p = 1 := by
        have h2 : (1 : Nat) = p := by simpa [gHop] using h
        omega
      subst hp
      decide
    · exfalso
      simp [gHop, ha] at h
  · intro i hi
    have h0 : i = 0 := by omega
    subst h0
    decide
  · intro j hj
    have h01 : j = 0 ∨ j = 1 := by omega
    rcases h01 with h | h <;> subst h <;> decide

/-! ### The node transform pass as a per-spec map -/

theorem writeNodeGeom_eq_map (nodes : List NodeSpec) (c : ElkNode) (off : Point) :
    writeNodeGeom nodes c off = nodes.map (writeGeomFn c off) := rfl

mutual

/-- The node transform recursion is the map of `nodeWriteFn` over the spec
list. -/
theorem nodeTransformsRecurse_map (t : ElkNode) (nodes : List NodeSpec) (off : Point) :
    elkGraphToNodeTransformsRecurse t nodes off = nodes.map (nodeWriteFn t off) := by
  cases t with
  | mk i x y w h z p e children =>
    rw [elkGraphToNodeTransformsRecurse]
    rw [nodeTransformsForest_map children nodes off]
    rfl

/-- Child-list version of `nodeTransformsRecurse_map`. -/
theorem nodeTransformsForest_map (f : ElkForest) (nodes : List NodeSpec) (off : Point) :
    nodeTransformsForest f nodes off = nodes.map (forestWriteFn f off) := by
  cases f with
  | nil =>
    rw [nodeTransformsForest]
    exact (List.map_id nodes).symm
  | cons c rest =>
    rw [nodeTransformsForest]
    rw [nodeTransformsRecurse_map c (writeNodeGeom nodes c off) (off + c.pos)]
    rw [writeNodeGeom_eq_map, List.map_map]
    rw [nodeTransformsForest_map rest (nodes.map (nodeWriteFn c (off + c.pos) ∘ writeGeomFn c off)) off]
    rw [List.map_map]
    rfl

end

/-! ### Geometry writers and their idempotence -/

theorem applyGeom_applyGeom (a b : GeomUpdate) (s : NodeSpec) :
    applyGeom a (applyGeom b s) = applyGeom a s := rfl

theorem applyGeom_id_field (a : GeomUpdate) (s : NodeSpec) :
    (applyGeom a s).id = s.id := rfl

theorem geomWriter_writeGeomFn (c : ElkNode) (off : Point) :
    GeomWriter (writeGeomFn c off) := by
  refine ⟨fun nid =>
    if some nid = c.nodeId then
      some ⟨some (c.posX + off.x), some (c.posY + off.y), some c.zF, c.widthF, c.heightF⟩
    else none, ?_⟩
  intro s
  unfold writeGeomFn
  by_cases h : some s.id = c.nodeId
  · simp only [if_pos h]
    rfl
  · simp only [if_neg h]

theorem geomWriter_comp {F G : NodeSpec → NodeSpec}
    (hF : GeomWriter F) (hG : GeomWriter G) : GeomWriter (fun s => G (F s)) := by
  obtain ⟨uF, huF⟩ := hF
  obtain ⟨uG, huG⟩ := hG
  refine ⟨fun nid =>
    match uG nid with
    | some b => some b
    | none => uF nid, ?_⟩
  intro s
  show G (F s) = match (match uG s.id with | some b => some b | none => uF s.id) with
    | none => s
    | some b => applyGeom b s
  cases hf : uF s.id with
  | none =>
    have hFs : F s = s := by rw [huF s, hf]
    rw [hFs, huG s]
    cases hg : uG s.id with
    | none => rfl
    | some b => rfl
  | some bf =>
    have hFs : F s = applyGeom bf s := by rw [huF s, hf]
    have hid : (F s).id = s.id := by rw [hFs]; rfl
    rw [huG (F s), hid]
    cases hg : uG s.id with
    | none => rw [hFs]
    | some bg => simp only [hFs, applyGeom_applyGeom]

mutual

/-- Every whole-subtree node write is a geometry writer. -/
theorem geomWriter_nodeWriteFn (t : ElkNode) (off : Point) :
    GeomWriter (nodeWriteFn t off) := by
  cases t with
  | mk i x y w h z p e children =>
    obtain ⟨u, hu⟩ := geomWriter_forestWriteFn children off
    exact ⟨u, fun s => hu s⟩

/-- Child-list version of `geomWriter_nodeWriteFn`. -/
theorem geomWriter_forestWriteFn (f : ElkForest) (off : Point) :
    GeomWriter (forestWriteFn f off) := by
  cases f with
  | nil => exact ⟨fun _ => none, fun s => rfl⟩
  | cons c rest =>
    have h1 := geomWriter_writeGeomFn c off
    have h2 := geomWriter_nodeWriteFn c (off + c.pos)
    have h3 := geomWriter_forestWriteFn rest off
    obtain ⟨u, hu⟩ := geomWriter_comp (geomWriter_comp h1 h2) h3
    exact ⟨u, fun s => hu s⟩

end

/-- Geometry writers are idempotent: overwriting the same fields keyed on
the unchanged id a second time changes nothing. -/
theorem geomWriter_idem {F : NodeSpec → NodeSpec} (hF : GeomWriter F) (s : NodeSpec) :
    F (F s) = F s := by
  obtain ⟨u, hu⟩ := hF
  cases hf : u s.id with
  | none =>
    have hFs : F s = s := by rw [hu s, hf]
    rw [hFs]
    exact hFs
  | some b =>
    have hFs : F s = applyGeom b s := by rw [hu s, hf]
    have hid : (F s).id = s.id := by rw [hFs]; rfl
    rw [hu (F s), hid, hf]
    simp only [hFs, applyGeom_applyGeom]

/-- Writing the solved geometry into the specs twice equals writing it
once. -/
theorem nodeTransforms_idem (solved : ElkNode) (nodes : List NodeSpec) :
    elkGraphToNodeTransforms solved (elkGraphToNodeTransforms solved nodes) =
      elkGraphToNodeTransforms solved nodes := by
  unfold elkGraphToNodeTransforms
  rw [nodeTransformsRecurse_map, nodeTransformsRecurse_map, List.map_map]
  apply List.map_congr_left
  intro s _
  exact geomWriter_idem (geomWriter_nodeWriteFn solved ⟨0, 0⟩) s

/-- Writing the reassembled edge points into the specs twice equals writing
them once. -/
theorem edgeTransforms_idem (solved : ElkNode) (edges : List EdgeSpec) :
    elkGraphToEdgeTransforms solved (elkGraphToEdgeTransforms solved edges) =
      elkGraphToEdgeTransforms solved edges := by
  unfold elkGraphToEdgeTransforms
  rw [List.map_map]
  apply List.map_congr_left
  intro e _
  cases h : edgeTransformsOf solved e.id with
  | none => simp [Function.comp, h]
  | some tr => simp [Function.comp, h]

/-- C8 (counterexample): the first pipeline pass writes the solved geometry
— including a committed width — back into the node specs, so the second
pass builds a different ELK graph (the child now arrives with a committed
size) and hands the solver a different input; with a deterministic pure
solver sensitive to that difference the second LayoutResult differs from
the first. -/
theorem claim_C8_counterexample :
    ((runLayoutPipeline probeSolver 9 [probeSpec] []).bind fun r =>
        getElkGraph r.nodes r.edges 9) ≠ getElkGraph [probeSpec] [] 9 ∧
    ((runLayoutPipeline probeSolver 9 [probeSpec] []).bind fun r =>
        runLayoutPipeline probeSolver 9 r.nodes r.edges) ≠
      runLayoutPipeline probeSolver 9 [probeSpec] [] ∧
    (runLayoutPipeline probeSolver 9 [probeSpec] []).isSome := by
  decide

/-- C8 (amended): one pipeline pass mutates the node specs, so idempotence
holds only relative to the rebuilt graph: if the second build succeeds and
the solver answers the rebuilt graph exactly as it answered the first, the
second run returns a LayoutResult bit-identical to the first — rewriting
the same geometry and the same edge points into the specs is a no-op. -/
theorem claim_C8_second_run_identical_if_solver_agrees
    (solver : ElkNode → ElkNode) (fuel : Nat)
    (nodes : List NodeSpec) (edges : List EdgeSpec) (g1 g2 : ElkNode)
    (h1 : getElkGraph nodes edges fuel = some g1)
    (h2 : getElkGraph (elkGraphToNodeTransforms (solver g1) nodes)
      (elkGraphToEdgeTransforms (solver g1) edges) fuel = some g2)
    (hsolve : solver g2 = solver g1) :
    ∃ res1, runLayoutPipeline solver fuel nodes edges = some res1 ∧
      runLayoutPipeline solver fuel res1.nodes res1.edges = some res1 := by
  refine ⟨{ width := (solver g1).widthF, height := (solver g1).heightF,
            nodes := elkGraphToNodeTransforms (solver g1) nodes,
            edges := elkGraphToEdgeTransforms (solver g1) edges }, ?_, ?_⟩
  · unfold runLayoutPipeline
    rw [h1]
  · show runLayoutPipeline solver fuel (elkGraphToNodeTransforms (solver g1) nodes)
      (elkGraphToEdgeTransforms (solver g1) edges) = some _
    unfold runLayoutPipeline
    rw [h2]
    show some
        ({ width := (solver g2).widthF,
           height := (solver g2).heightF,
           nodes := elkGraphToNodeTransforms (solver g2) (elkGraphToNodeTransforms (solver g1) nodes),
           edges := elkGraphToEdgeTransforms (solver g2) (elkGraphToEdgeTransforms (solver g1) edges) } : LayoutResult) =
      some
        ({ width := (solver g1).widthF,
           height := (solver g1).heightF,
           nodes := elkGraphToNodeTransforms (solver g1) nodes,
           edges := elkGraphToEdgeTransforms (solver g1) edges } : LayoutResult)
    rw [hsolve, nodeTransforms_idem, edgeTransforms_idem]

/-- C8 (witness): with a constant solver the agreement hypothesis holds
definitionally, and the second run reproduces the first bit for bit. -/
theorem claim_C8_second_run_identical_if_solver_agrees_witness :
    ∃ res1, runLayoutPipeline (fun _ => solvedProbeA) 9 [probeSpec] [] = some res1 ∧
      runLayoutPipeline (fun _ => solvedProbeA) 9 res1.nodes res1.edges = some res1 := by
  refine claim_C8_second_run_identical_if_solver_agrees (fun _ => solvedProbeA) 9
    [probeSpec] []
    (.mk none 0 0 none none 0 [] []
      (.cons (.mk (some 0) 0 0 none none 0 [] [] .nil) .nil))
    (.mk none 0 0 none none 0 [] []
      (.cons (.mk (some 0) 0 0 (some 30) (some 40) 0 [] [] .nil) .nil))
    (by decide) (by decide) rfl
